import Mathlib

/-!
# Gates and circuits of `quantum/gates.go`

A shallow embedding of the gate/circuit layer of the `quantum` package and the
properties its specification states about it.

* `HGate`, `TGate`, `XGate`, `YGate`, `ZGate`, `CNotGate` are the Go structs, `Gate`
  is the Go interface seen as the closed sum of its implementers in `gates.go`
  (the six pointer receivers and `Circuit`), `Circuit` is `[]Gate`.
* Go `int` fields are `Int` (the gates never do arithmetic on them). A nil pointer and
  a nil interface value, on which a method call panics, are not values of these types.
* The register (`Computer`) is not part of `gates.go`; it is a parameter: a record of
  state transformers on an arbitrary state type. A method call that mutates the
  register in place becomes a function `σ → σ`.
* `complex128` arguments of `Unitary` are kept as the expressions the source writes
  (`Coef`). `Coef.toComplex128` is the complex128 value such an expression evaluates
  to, an exact dyadic number, and it is what a register receives; `Coef.toComplex` is
  the ideal value the expression stands for before rounding.
-/

/-! ## The register interface -/

/-- The `complex128` values that `gates.go` passes to `Unitary`, as exact expressions:
an integer constant (the source writes `1` and `0`), `cmplx.Exp(complex(0, math.Pi/4))`
and `cmplx.Exp(complex(0, -math.Pi/4))`. -/
inductive Coef where
  | const (n : Int)
  | expIPi4
  | expNegIPi4
  deriving DecidableEq, Repr

/-- The register capabilities the gates consume. `Unitary` and `CNot` are the methods
of the Go interface `Computer` that `gates.go` calls; `Hadamard`, `X`, `Y` and `Z` are the
package-level helpers `Hadamard(c, bit)`, `X(c, bit)`, `Y(c, bit)`, `Z(c, bit)`, which
live outside `gates.go` and are therefore taken as parameters as well. Every primitive
maps the register state before the call to the state after it. -/
structure Computer (σ : Type) where
  Unitary : Int → Coef → Coef → Coef → Coef → σ → σ
  CNot : Int → Int → σ → σ
  Hadamard : Int → σ → σ
  X : Int → σ → σ
  Y : Int → σ → σ
  Z : Int → σ → σ

/-- One call received by the register. -/
inductive Call where
  | Unitary (target : Int) (m11 m12 m21 m22 : Coef)
  | CNot (control target : Int)
  | Hadamard (bit : Int)
  | X (bit : Int)
  | Y (bit : Int)
  | Z (bit : Int)
  deriving DecidableEq, Repr

/-- The register that only records the calls it receives, oldest first. Running a
gate on it from the empty log yields the sequence of register calls of that gate. -/
def recorder : Computer (List Call) where
  Unitary b m11 m12 m21 m22 log := log ++ [Call.Unitary b m11 m12 m21 m22]
  CNot c t log := log ++ [Call.CNot c t]
  Hadamard b log := log ++ [Call.Hadamard b]
  X b log := log ++ [Call.X b]
  Y b log := log ++ [Call.Y b]
  Z b log := log ++ [Call.Z b]

/-- Performs one recorded call on a register. -/
def Call.run {σ : Type} (comp : Computer σ) : Call → σ → σ
  | .Unitary b m11 m12 m21 m22, s => comp.Unitary b m11 m12 m21 m22 s
  | .CNot c t, s => comp.CNot c t s
  | .Hadamard b, s => comp.Hadamard b s
  | .X b, s => comp.X b s
  | .Y b, s => comp.Y b s
  | .Z b, s => comp.Z b s

/-- Performs a sequence of recorded calls on a register, oldest first. -/
def replay {σ : Type} (comp : Computer σ) (calls : List Call) (s : σ) : σ :=
  calls.foldl (fun st c => c.run comp st) s

/-! ## Library functions used by `gates.go` -/

/-- Go `strconv.Itoa` (and the `%d` verb of `fmt.Sprintf` on an `int`): the decimal
digits of the integer, preceded by `-` when it is negative. -/
def Itoa (i : Int) : String := toString i

/-- Go `strings.Join`: the empty string for no element, the element itself for one,
otherwise the first element followed by `sep` and an element, for each further one. -/
def Join (elems : List String) (sep : String) : String :=
  match elems with
  | [] => ""
  | [e] => e
  | e :: rest => rest.foldl (fun b s => b ++ sep ++ s) e

/-! ## Gate types -/

/-- The Go struct `HGate`. -/
structure HGate where
  Bit : Int
  deriving DecidableEq, Repr

/-- The Go struct `TGate`; a literal `TGate{Bit: b}` leaves `Conjugate` false. -/
structure TGate where
  Bit : Int
  Conjugate : Bool := false
  deriving DecidableEq, Repr

/-- The Go struct `XGate`. -/
structure XGate where
  Bit : Int
  deriving DecidableEq, Repr

/-- The Go struct `YGate`. -/
structure YGate where
  Bit : Int
  deriving DecidableEq, Repr

/-- The Go struct `ZGate`. -/
structure ZGate where
  Bit : Int
  deriving DecidableEq, Repr

/-- The Go struct `CNotGate`. -/
structure CNotGate where
  Control : Int
  Target : Int
  deriving DecidableEq, Repr

/-- The Go interface `Gate`, as the sum of the types of `gates.go` that implement it.
The last constructor is a `Circuit` used as a gate. -/
inductive Gate where
  | HGate (h : HGate)
  | TGate (t : TGate)
  | XGate (x : XGate)
  | YGate (y : YGate)
  | ZGate (z : ZGate)
  | CNotGate (c : CNotGate)
  | Circuit (c : List Gate)

/-- The Go type `Circuit`, a slice of gates. -/
abbrev Circuit := List Gate

/-! ## `String` -/

/-- `(*HGate).String`. -/
def HGate.String (h : HGate) : String :=
  "H(" ++ Itoa h.Bit ++ ")"

/-- `(*TGate).String`. -/
def TGate.String (t : TGate) : String :=
  let conjStr := if t.Conjugate then "*" else ""
  "T" ++ conjStr ++ "(" ++ Itoa t.Bit ++ ")"

/-- `(*XGate).String`. -/
def XGate.String (x : XGate) : String :=
  "X(" ++ Itoa x.Bit ++ ")"

/-- `(*YGate).String`. -/
def YGate.String (y : YGate) : String :=
  "Y(" ++ Itoa y.Bit ++ ")"

/-- `(*ZGate).String`. -/
def ZGate.String (z : ZGate) : String :=
  "Z(" ++ Itoa z.Bit ++ ")"

/-- `(*CNotGate).String`: `fmt.Sprintf("CNot(%d, %d)", c.Control, c.Target)`. -/
def CNotGate.String (c : CNotGate) : String :=
  "CNot(" ++ Itoa c.Control ++ ", " ++ Itoa c.Target ++ ")"

mutual
/-- The method `String` called through the interface `Gate`. -/
def Gate.String : Gate → String
  | .HGate h => h.String
  | .TGate t => t.String
  | .XGate x => x.String
  | .YGate y => y.String
  | .ZGate z => z.String
  | .CNotGate c => c.String
  | .Circuit c => Join (Circuit.parts c []) " "
/-- The loop of `Circuit.String`: `parts = append(parts, g.String())` for each `g` of
the circuit in range order, started from the `parts` collected so far. -/
def Circuit.parts : List Gate → List String → List String
  | [], parts => parts
  | g :: rest, parts => Circuit.parts rest (parts ++ [Gate.String g])
end

/-- `Circuit.String`. -/
def Circuit.String (c : Circuit) : String :=
  Join (Circuit.parts c []) " "

/-! ## `Apply` and `Invert` -/

/-- `(*HGate).Apply`. -/
def HGate.Apply {σ : Type} (h : HGate) (c : Computer σ) (s : σ) : σ :=
  c.Hadamard h.Bit s

/-- `(*HGate).Invert`. -/
def HGate.Invert {σ : Type} (h : HGate) (c : Computer σ) (s : σ) : σ :=
  c.Hadamard h.Bit s

mutual
/-- `(*TGate).Apply`: a conjugate gate hands over to `Invert` of `TGate{Bit: t.Bit}`. -/
def TGate.Apply {σ : Type} (t : TGate) (c : Computer σ) (s : σ) : σ :=
  if t.Conjugate then
    TGate.Invert { Bit := t.Bit } c s
  else
    c.Unitary t.Bit (.const 1) (.const 0) (.const 0) .expIPi4 s
termination_by (if t.Conjugate then 1 else 0)
decreasing_by all_goals simp_all
/-- `(*TGate).Invert`: a conjugate gate hands over to `Apply` of `TGate{Bit: t.Bit}`. -/
def TGate.Invert {σ : Type} (t : TGate) (c : Computer σ) (s : σ) : σ :=
  if t.Conjugate then
    TGate.Apply { Bit := t.Bit } c s
  else
    c.Unitary t.Bit (.const 1) (.const 0) (.const 0) .expNegIPi4 s
termination_by (if t.Conjugate then 1 else 0)
decreasing_by all_goals simp_all
end

/-- `(*XGate).Apply`. -/
def XGate.Apply {σ : Type} (x : XGate) (c : Computer σ) (s : σ) : σ :=
  c.X x.Bit s

/-- `(*XGate).Invert`. -/
def XGate.Invert {σ : Type} (x : XGate) (c : Computer σ) (s : σ) : σ :=
  c.X x.Bit s

/-- `(*YGate).Apply`. -/
def YGate.Apply {σ : Type} (y : YGate) (c : Computer σ) (s : σ) : σ :=
  c.Y y.Bit s

/-- `(*YGate).Invert`: the loop `for i := 0; i < 4; i++` around `Y(c, y.Bit)`. -/
def YGate.Invert {σ : Type} (y : YGate) (c : Computer σ) (s : σ) : σ :=
  (List.range 4).foldl (fun st _ => c.Y y.Bit st) s

/-- `(*ZGate).Apply`. -/
def ZGate.Apply {σ : Type} (z : ZGate) (c : Computer σ) (s : σ) : σ :=
  c.Z z.Bit s

/-- `(*ZGate).Invert`. -/
def ZGate.Invert {σ : Type} (z : ZGate) (c : Computer σ) (s : σ) : σ :=
  c.Z z.Bit s

/-- `(*CNotGate).Apply`. -/
def CNotGate.Apply {σ : Type} (c : CNotGate) (comp : Computer σ) (s : σ) : σ :=
  comp.CNot c.Control c.Target s

/-- `(*CNotGate).Invert`. -/
def CNotGate.Invert {σ : Type} (c : CNotGate) (comp : Computer σ) (s : σ) : σ :=
  comp.CNot c.Control c.Target s

mutual
/-- The method `Apply` called through the interface `Gate`. -/
def Gate.Apply {σ : Type} (comp : Computer σ) : Gate → σ → σ
  | .HGate h, s => h.Apply comp s
  | .TGate t, s => t.Apply comp s
  | .XGate x, s => x.Apply comp s
  | .YGate y, s => y.Apply comp s
  | .ZGate z, s => z.Apply comp s
  | .CNotGate c, s => c.Apply comp s
  | .Circuit c, s => Circuit.Apply comp c s
/-- `Circuit.Apply`: `for _, g := range c { g.Apply(comp) }`. -/
def Circuit.Apply {σ : Type} (comp : Computer σ) : List Gate → σ → σ
  | [], s => s
  | g :: rest, s => Circuit.Apply comp rest (Gate.Apply comp g s)
end

mutual
/-- The method `Invert` called through the interface `Gate`. -/
def Gate.Invert {σ : Type} (comp : Computer σ) : Gate → σ → σ
  | .HGate h, s => h.Invert comp s
  | .TGate t, s => t.Invert comp s
  | .XGate x, s => x.Invert comp s
  | .YGate y, s => y.Invert comp s
  | .ZGate z, s => z.Invert comp s
  | .CNotGate c, s => c.Invert comp s
  | .Circuit c, s => Circuit.Invert comp c s
/-- `Circuit.Invert`: `for i := len(c) - 1; i >= 0; i-- { c[i].Invert(comp) }`. The index
runs downwards, so the members after the first are all inverted, last one first,
before `c[0]` is. -/
def Circuit.Invert {σ : Type} (comp : Computer σ) : List Gate → σ → σ
  | [], s => s
  | g :: rest, s => Gate.Invert comp g (Circuit.Invert comp rest s)
end

/-! ## The loop of `Circuit.Invert` with its index -/

/-- The loop `for i := len(c) - 1; i >= 0; i-- { c[i].Invert(comp) }` from index `i` on.
When the test `i >= 0` fails the loop ends. Otherwise the body indexes `c[i]`: outside
`0 <= i < len(c)` that is a run-time panic, `none` here. The result carries, next to
the register state, the indices used so far, oldest first. -/
def Circuit.InvertLoop {σ : Type} (comp : Computer σ) (c : List Gate) (i : Int)
    (r : List Int × σ) : Option (List Int × σ) :=
  if 0 ≤ i then
    match (c)[i.toNat]? with
    | some g => Circuit.InvertLoop comp c (i - 1) (r.1 ++ [i], Gate.Invert comp g r.2)
    | none => none
  else
    some r
termination_by (i + 1).toNat
decreasing_by omega

/-- `Circuit.Invert` run with its index: the loop starts at `len(c) - 1`, with no index
used yet. -/
def Circuit.InvertIndexed {σ : Type} (comp : Computer σ) (c : List Gate) (s : σ) :
    Option (List Int × σ) :=
  Circuit.InvertLoop comp c ((c.length : Int) - 1) ([], s)

/-! ## Primitive gates and the qubits of gates and calls -/

/-- The six primitive gate variants: every gate but a circuit used as a gate. -/
def Gate.isPrimitive : Gate → Bool
  | .Circuit _ => false
  | _ => true

/-- The qubit indices a register call mentions, in argument order. -/
def Call.qubits : Call → List Int
  | .Unitary target _ _ _ _ => [target]
  | .CNot control target => [control, target]
  | .Hadamard bit => [bit]
  | .X bit => [bit]
  | .Y bit => [bit]
  | .Z bit => [bit]

mutual
/-- The qubit indices stored in a gate: `Bit` for a single-qubit gate, `Control` and
`Target` in that order for a `CNotGate`, and those of its members for a circuit. -/
def Gate.qubits : Gate → List Int
  | .HGate h => [h.Bit]
  | .TGate t => [t.Bit]
  | .XGate x => [x.Bit]
  | .YGate y => [y.Bit]
  | .ZGate z => [z.Bit]
  | .CNotGate c => [c.Control, c.Target]
  | .Circuit c => Circuit.qubits c
/-- The qubit indices that occur in a circuit. -/
def Circuit.qubits : List Gate → List Int
  | [] => []
  | g :: rest => Gate.qubits g ++ Circuit.qubits rest
end

/-! ## Reading decimal digits back -/

/-- The value of a decimal digit character. -/
def digitValue (ch : Char) : Nat := ch.toNat - 48

/-- The number read from decimal digits, most significant first, continuing from the
value `acc` read so far. -/
def readDigits (acc : Nat) : List Char → Nat
  | [] => acc
  | ch :: rest => readDigits (acc * 10 + digitValue ch) rest

/-! ## Exact semantics of the register -/

/-- Complex 2x2 matrices, the single-qubit operators. -/
abbrev Mat2 := Matrix (Fin 2) (Fin 2) ℂ

/-- The ideal value of a coefficient expression, the complex number it would denote
without rounding: `complex(0, y)` has real part `0` and imaginary part `y`, and
`-math.Pi/4` is `(-math.Pi)/4`. This is not the value the code passes to the register;
that value is `Coef.toComplex128`. -/
noncomputable def Coef.toComplex : Coef → ℂ
  | .const n => (n : ℂ)
  | .expIPi4 => Complex.exp ⟨0, Real.pi / 4⟩
  | .expNegIPi4 => Complex.exp ⟨0, -Real.pi / 4⟩

/-- Real part of the complex128 value of a coefficient expression, as the exact
rational the float64 is. `cmplx.Exp(complex(0, y))` is `complex(math.Cos(y), math.Sin(y))`;
at the float64 nearest to pi/4 the cosine is 0.7071067811865476, which is
6369051672525773 / 2^53 (2^53 = 9007199254740992), also for the negated argument. The
constants `1` and `0` are exact. -/
def Coef.re : Coef → ℚ
  | .const n => n
  | .expIPi4 => 6369051672525773 / 9007199254740992
  | .expNegIPi4 => 6369051672525773 / 9007199254740992

/-- Imaginary part of the complex128 value of a coefficient expression, as the exact
rational the float64 is: the sine at the float64 nearest to pi/4 is 0.7071067811865475,
which is 6369051672525772 / 2^53, and its negative for the negated argument. -/
def Coef.im : Coef → ℚ
  | .const _ => 0
  | .expIPi4 => 6369051672525772 / 9007199254740992
  | .expNegIPi4 => -(6369051672525772 / 9007199254740992)

/-- The complex128 value a coefficient expression evaluates to, which is what the
register receives, as a complex number. -/
noncomputable def Coef.toComplex128 (c : Coef) : ℂ :=
  ⟨(c.re : ℝ), (c.im : ℝ)⟩

/-- The matrix with rows `(m11, m12)` and `(m21, m22)` that a `Unitary` call passes to
the register, made of the complex128 values of its four arguments. -/
noncomputable def Coef.matrix (m11 m12 m21 m22 : Coef) : Mat2 :=
  !![m11.toComplex128, m12.toComplex128; m21.toComplex128, m22.toComplex128]

/-- The `Unitary` primitive acts on qubit `bit` by exact complex 2x2 matrix
multiplication: the matrices act on the states (the identity matrix does nothing, and
acting with `N` and then with `M` is acting with the product `M * N`), and a `Unitary`
call acts with the matrix of the four complex128 values it receives. -/
def Computer.UnitaryIsMatrixAction {σ : Type} (comp : Computer σ) (bit : Int) : Prop :=
  ∃ act : Mat2 → σ → σ,
    (∀ s, act 1 s = s) ∧
    (∀ M N s, act M (act N s) = act (M * N) s) ∧
    ∀ m11 m12 m21 m22 s,
      comp.Unitary bit m11 m12 m21 m22 s = act (Coef.matrix m11 m12 m21 m22) s

/-- An ideal register: `Hadamard`, `X`, `Y`, `Z` and `CNot` are involutions and
`Unitary` acts by matrix multiplication on every qubit. -/
structure Computer.Ideal {σ : Type} (comp : Computer σ) : Prop where
  hadamard_hadamard : ∀ b s, comp.Hadamard b (comp.Hadamard b s) = s
  x_x : ∀ b s, comp.X b (comp.X b s) = s
  y_y : ∀ b s, comp.Y b (comp.Y b s) = s
  z_z : ∀ b s, comp.Z b (comp.Z b s) = s
  cnot_cnot : ∀ c t s, comp.CNot c t (comp.CNot c t s) = s
  unitary : ∀ b, comp.UnitaryIsMatrixAction b

/-! ## A two-qubit state-vector register -/

/-- State of two qubits: `s i j` is the amplitude of the basis state with qubit 0
equal to `i` and qubit 1 equal to `j`. -/
abbrev TwoQubit := Fin 2 → Fin 2 → ℂ

/-- The basis state with both qubits 0. -/
def TwoQubit.ket00 : TwoQubit := fun i j => if i = 0 ∧ j = 0 then 1 else 0

/-- The state with the same amplitude 1/2 on each of the four basis states. -/
noncomputable def TwoQubit.uniform : TwoQubit := fun _ _ => 1 / 2

/-- A single-qubit operator acting on qubit 0 or on qubit 1; any other index is
outside the register and leaves it alone. -/
def TwoQubit.act (bit : Int) (M : Mat2) (s : TwoQubit) : TwoQubit :=
  if bit = 0 then fun i j => M i 0 * s 0 j + M i 1 * s 1 j
  else if bit = 1 then fun i j => M j 0 * s i 0 + M j 1 * s i 1
  else s

/-- Controlled flip: the target is flipped where the control is 1 (addition in
`Fin 2`); a pair of indices other than `(0, 1)` and `(1, 0)` leaves the register alone. -/
def TwoQubit.cnot (control target : Int) (s : TwoQubit) : TwoQubit :=
  if control = 0 ∧ target = 1 then fun i j => s i (j + i)
  else if control = 1 ∧ target = 0 then fun i j => s (i + j) j
  else s

/-- The Hadamard matrix. -/
noncomputable def hadamardMatrix : Mat2 :=
  !![((Real.sqrt 2)⁻¹ : ℝ), ((Real.sqrt 2)⁻¹ : ℝ); ((Real.sqrt 2)⁻¹ : ℝ), -((Real.sqrt 2)⁻¹ : ℝ)]

/-- The Pauli X matrix. -/
def pauliX : Mat2 := !![0, 1; 1, 0]

/-- The Pauli Y matrix. -/
def pauliY : Mat2 := !![0, -Complex.I; Complex.I, 0]

/-- The Pauli Z matrix. -/
def pauliZ : Mat2 := !![1, 0; 0, -1]

/-- The exact two-qubit register, an instance of the register interface on which the
hypotheses about registers can be met: every single-qubit primitive acts with its
matrix, `Unitary` with the matrix of its coefficients. -/
noncomputable def twoQubit : Computer TwoQubit where
  Unitary b m11 m12 m21 m22 := TwoQubit.act b (Coef.matrix m11 m12 m21 m22)
  CNot := TwoQubit.cnot
  Hadamard b := TwoQubit.act b hadamardMatrix
  X b := TwoQubit.act b pauliX
  Y b := TwoQubit.act b pauliY
  Z b := TwoQubit.act b pauliZ

/-! ## Unfolding the phase gate -/

theorem TGate.Apply_plain {σ : Type} (b : Int) (c : Computer σ) (s : σ) :
    TGate.Apply ⟨b, false⟩ c s = c.Unitary b (.const 1) (.const 0) (.const 0) .expIPi4 s := by
  rw [TGate.Apply]; simp

theorem TGate.Invert_plain {σ : Type} (b : Int) (c : Computer σ) (s : σ) :
    TGate.Invert ⟨b, false⟩ c s = c.Unitary b (.const 1) (.const 0) (.const 0) .expNegIPi4 s := by
  rw [TGate.Invert]; simp

theorem TGate.Apply_conj {σ : Type} (b : Int) (c : Computer σ) (s : σ) :
    TGate.Apply ⟨b, true⟩ c s = TGate.Invert ⟨b, false⟩ c s := by
  rw [TGate.Apply]; simp

theorem TGate.Invert_conj {σ : Type} (b : Int) (c : Computer σ) (s : σ) :
    TGate.Invert ⟨b, true⟩ c s = TGate.Apply ⟨b, false⟩ c s := by
  rw [TGate.Invert]; simp

/-! ## A circuit used as a gate runs the circuit's methods -/

theorem Gate.String_Circuit (c : List Gate) : Gate.String (.Circuit c) = Circuit.String c := by
  rw [Gate.String, Circuit.String]

theorem Gate.Apply_Circuit {σ : Type} (comp : Computer σ) (c : List Gate) (s : σ) :
    Gate.Apply comp (.Circuit c) s = Circuit.Apply comp c s := by
  rw [Gate.Apply]

theorem Gate.Invert_Circuit {σ : Type} (comp : Computer σ) (c : List Gate) (s : σ) :
    Gate.Invert comp (.Circuit c) s = Circuit.Invert comp c s := by
  rw [Gate.Invert]

/-! ## Induction over gates -/

mutual
/-- Induction over a gate: a property that holds of the six primitive gates, and of a
circuit as soon as it holds of its members, holds of every gate. -/
theorem Gate.induct (P : Gate → Prop)
    (hH : ∀ h, P (.HGate h)) (hT : ∀ t, P (.TGate t)) (hX : ∀ x, P (.XGate x))
    (hY : ∀ y, P (.YGate y)) (hZ : ∀ z, P (.ZGate z)) (hC : ∀ c, P (.CNotGate c))
    (hCirc : ∀ c : List Gate, (∀ g ∈ c, P g) → P (.Circuit c)) : ∀ g, P g
  | .HGate h => hH h
  | .TGate t => hT t
  | .XGate x => hX x
  | .YGate y => hY y
  | .ZGate z => hZ z
  | .CNotGate c => hC c
  | .Circuit c => hCirc c (Gate.induct_members P hH hT hX hY hZ hC hCirc c)
/-- The members of a circuit inherit a property that is inductive over gates. -/
theorem Gate.induct_members (P : Gate → Prop)
    (hH : ∀ h, P (.HGate h)) (hT : ∀ t, P (.TGate t)) (hX : ∀ x, P (.XGate x))
    (hY : ∀ y, P (.YGate y)) (hZ : ∀ z, P (.ZGate z)) (hC : ∀ c, P (.CNotGate c))
    (hCirc : ∀ c : List Gate, (∀ g ∈ c, P g) → P (.Circuit c)) :
    ∀ c : List Gate, ∀ g ∈ c, P g
  | [], _, hg => absurd hg (List.not_mem_nil _)
  | g :: rest, x, hx =>
    (List.mem_cons.1 hx).elim
      (fun e => e ▸ Gate.induct P hH hT hX hY hZ hC hCirc g)
      (fun h => Gate.induct_members P hH hT hX hY hZ hC hCirc rest x h)
end

/-! ## Circuits: one step and concatenation -/

theorem Circuit.Apply_nil {σ : Type} (comp : Computer σ) (s : σ) :
    Circuit.Apply comp [] s = s := by
  rw [Circuit.Apply]

theorem Circuit.Apply_cons {σ : Type} (comp : Computer σ) (g : Gate) (rest : List Gate) (s : σ) :
    Circuit.Apply comp (g :: rest) s = Circuit.Apply comp rest (Gate.Apply comp g s) := by
  rw [Circuit.Apply]

theorem Circuit.Invert_nil {σ : Type} (comp : Computer σ) (s : σ) :
    Circuit.Invert comp [] s = s := by
  rw [Circuit.Invert]

theorem Circuit.Invert_cons {σ : Type} (comp : Computer σ) (g : Gate) (rest : List Gate) (s : σ) :
    Circuit.Invert comp (g :: rest) s = Gate.Invert comp g (Circuit.Invert comp rest s) := by
  rw [Circuit.Invert]

theorem Circuit.Apply_append {σ : Type} (comp : Computer σ) (a b : List Gate) (s : σ) :
    Circuit.Apply comp (a ++ b) s = Circuit.Apply comp b (Circuit.Apply comp a s) := by
  induction a generalizing s with
  | nil => simp [Circuit.Apply_nil]
  | cons g rest ih => simp [Circuit.Apply_cons, ih]

theorem Circuit.Invert_append {σ : Type} (comp : Computer σ) (a b : List Gate) (s : σ) :
    Circuit.Invert comp (a ++ b) s = Circuit.Invert comp a (Circuit.Invert comp b s) := by
  induction a with
  | nil => simp [Circuit.Invert_nil]
  | cons g rest ih => simp [Circuit.Invert_cons, ih]

theorem Circuit.Apply_eq_foldl {σ : Type} (comp : Computer σ) (c : List Gate) (s : σ) :
    Circuit.Apply comp c s = c.foldl (fun st g => Gate.Apply comp g st) s := by
  induction c generalizing s with
  | nil => simp [Circuit.Apply_nil]
  | cons g rest ih => simp [Circuit.Apply_cons, ih]

theorem Circuit.Invert_eq_foldl_reverse {σ : Type} (comp : Computer σ) (c : List Gate) (s : σ) :
    Circuit.Invert comp c s = c.reverse.foldl (fun st g => Gate.Invert comp g st) s := by
  induction c with
  | nil => simp [Circuit.Invert_nil]
  | cons g rest ih => simp [Circuit.Invert_cons, ih, List.foldl_append]

/-! ## The log of the recording register only grows -/

theorem YGate.Invert_eq {σ : Type} (y : YGate) (c : Computer σ) (s : σ) :
    y.Invert c s = c.Y y.Bit (c.Y y.Bit (c.Y y.Bit (c.Y y.Bit s))) := by
  simp [YGate.Invert, List.range, List.range.loop]

theorem Gate.Apply_recorder (g : Gate) :
    ∀ log, Gate.Apply recorder g log = log ++ Gate.Apply recorder g [] := by
  induction g using Gate.induct with
  | hH h => intro log; simp [Gate.Apply, HGate.Apply, recorder]
  | hT t =>
    intro log
    obtain ⟨b, conj⟩ := t
    cases conj <;>
      simp [Gate.Apply, TGate.Apply_plain, TGate.Apply_conj, TGate.Invert_plain, recorder]
  | hX x => intro log; simp [Gate.Apply, XGate.Apply, recorder]
  | hY y => intro log; simp [Gate.Apply, YGate.Apply, recorder]
  | hZ z => intro log; simp [Gate.Apply, ZGate.Apply, recorder]
  | hC c => intro log; simp [Gate.Apply, CNotGate.Apply, recorder]
  | hCirc c ih =>
    have key : ∀ log, Circuit.Apply recorder c log = log ++ Circuit.Apply recorder c [] := by
      induction c with
      | nil => intro log; simp [Circuit.Apply_nil]
      | cons g rest ihr =>
        intro log
        have hrest := ihr (fun x hx => ih x (List.mem_cons_of_mem _ hx))
        rw [Circuit.Apply_cons, Circuit.Apply_cons, hrest (Gate.Apply recorder g log),
          hrest (Gate.Apply recorder g []), ih g (List.mem_cons_self _ _) log, List.append_assoc]
    intro log
    simpa [Gate.Apply] using key log

theorem Gate.Invert_recorder (g : Gate) :
    ∀ log, Gate.Invert recorder g log = log ++ Gate.Invert recorder g [] := by
  induction g using Gate.induct with
  | hH h => intro log; simp [Gate.Invert, HGate.Invert, recorder]
  | hT t =>
    intro log
    obtain ⟨b, conj⟩ := t
    cases conj <;>
      simp [Gate.Invert, TGate.Apply_plain, TGate.Invert_conj, TGate.Invert_plain, recorder]
  | hX x => intro log; simp [Gate.Invert, XGate.Invert, recorder]
  | hY y => intro log; simp [Gate.Invert, YGate.Invert_eq, recorder]
  | hZ z => intro log; simp [Gate.Invert, ZGate.Invert, recorder]
  | hC c => intro log; simp [Gate.Invert, CNotGate.Invert, recorder]
  | hCirc c ih =>
    have key : ∀ log, Circuit.Invert recorder c log = log ++ Circuit.Invert recorder c [] := by
      induction c with
      | nil => intro log; simp [Circuit.Invert_nil]
      | cons g rest ihr =>
        intro log
        have hrest := ihr (fun x hx => ih x (List.mem_cons_of_mem _ hx))
        rw [Circuit.Invert_cons, Circuit.Invert_cons, hrest log,
          ih g (List.mem_cons_self _ _) (log ++ Circuit.Invert recorder rest []),
          ih g (List.mem_cons_self _ _) (Circuit.Invert recorder rest []), List.append_assoc]
    intro log
    simpa [Gate.Invert] using key log

theorem Circuit.Apply_log (c : List Gate) (log : List Call) :
    Circuit.Apply recorder c log = log ++ Circuit.Apply recorder c [] := by
  simpa [Gate.Apply] using Gate.Apply_recorder (.Circuit c) log

theorem Circuit.Invert_log (c : List Gate) (log : List Call) :
    Circuit.Invert recorder c log = log ++ Circuit.Invert recorder c [] := by
  simpa [Gate.Invert] using Gate.Invert_recorder (.Circuit c) log

/-! ## Replaying the log on any register -/

theorem replay_append {σ : Type} (comp : Computer σ) (a b : List Call) (s : σ) :
    replay comp (a ++ b) s = replay comp b (replay comp a s) := by
  simp [replay, List.foldl_append]

/-- Running a gate forwards on a register is performing, in order, the calls it logs
on the recording register. -/
theorem Gate.Apply_eq_replay {σ : Type} (comp : Computer σ) (g : Gate) :
    ∀ s, Gate.Apply comp g s = replay comp (Gate.Apply recorder g []) s := by
  induction g using Gate.induct with
  | hH h => intro s; simp [Gate.Apply, HGate.Apply, recorder, replay, Call.run]
  | hT t =>
    intro s
    obtain ⟨b, conj⟩ := t
    cases conj <;>
      simp [Gate.Apply, TGate.Apply_plain, TGate.Apply_conj, TGate.Invert_plain, recorder,
        replay, Call.run]
  | hX x => intro s; simp [Gate.Apply, XGate.Apply, recorder, replay, Call.run]
  | hY y => intro s; simp [Gate.Apply, YGate.Apply, recorder, replay, Call.run]
  | hZ z => intro s; simp [Gate.Apply, ZGate.Apply, recorder, replay, Call.run]
  | hC c => intro s; simp [Gate.Apply, CNotGate.Apply, recorder, replay, Call.run]
  | hCirc c ih =>
    have key : ∀ s, Circuit.Apply comp c s = replay comp (Circuit.Apply recorder c []) s := by
      induction c with
      | nil => intro s; simp [Circuit.Apply_nil, replay]
      | cons g rest ihr =>
        intro s
        have hrest := ihr (fun x hx => ih x (List.mem_cons_of_mem _ hx))
        rw [Circuit.Apply_cons, Circuit.Apply_cons, Circuit.Apply_log, replay_append,
          ← ih g (List.mem_cons_self _ _) s, hrest]
    intro s
    simpa [Gate.Apply] using key s

/-- Running a gate backwards on a register is performing, in order, the calls it logs
on the recording register. -/
theorem Gate.Invert_eq_replay {σ : Type} (comp : Computer σ) (g : Gate) :
    ∀ s, Gate.Invert comp g s = replay comp (Gate.Invert recorder g []) s := by
  induction g using Gate.induct with
  | hH h => intro s; simp [Gate.Invert, HGate.Invert, recorder, replay, Call.run]
  | hT t =>
    intro s
    obtain ⟨b, conj⟩ := t
    cases conj <;>
      simp [Gate.Invert, TGate.Apply_plain, TGate.Invert_conj, TGate.Invert_plain, recorder,
        replay, Call.run]
  | hX x => intro s; simp [Gate.Invert, XGate.Invert, recorder, replay, Call.run]
  | hY y => intro s; simp [Gate.Invert, YGate.Invert_eq, recorder, replay, Call.run]
  | hZ z => intro s; simp [Gate.Invert, ZGate.Invert, recorder, replay, Call.run]
  | hC c => intro s; simp [Gate.Invert, CNotGate.Invert, recorder, replay, Call.run]
  | hCirc c ih =>
    have key : ∀ s, Circuit.Invert comp c s = replay comp (Circuit.Invert recorder c []) s := by
      induction c with
      | nil => intro s; simp [Circuit.Invert_nil, replay]
      | cons g rest ihr =>
        intro s
        have hrest := ihr (fun x hx => ih x (List.mem_cons_of_mem _ hx))
        rw [Circuit.Invert_cons, Circuit.Invert_cons, Gate.Invert_recorder, replay_append,
          ← hrest, ih g (List.mem_cons_self _ _)]
    intro s
    simpa [Gate.Invert] using key s

/-! ## Circuits: order of execution -/

theorem Circuit.Apply_recorder_eq_flatten (c : List Gate) :
    Circuit.Apply recorder c [] = (c.map (fun g => Gate.Apply recorder g [])).flatten := by
  induction c with
  | nil => simp [Circuit.Apply_nil]
  | cons g rest ih =>
    rw [Circuit.Apply_cons, Circuit.Apply_log, ih]
    simp

theorem Circuit.Invert_recorder_eq_flatten (c : List Gate) :
    Circuit.Invert recorder c [] =
      (c.reverse.map (fun g => Gate.Invert recorder g [])).flatten := by
  induction c with
  | nil => simp [Circuit.Invert_nil]
  | cons g rest ih =>
    rw [Circuit.Invert_cons, Gate.Invert_recorder, ih]
    simp

theorem finRange_reverse_map_get {α : Type} (l : List α) :
    (List.finRange l.length).reverse.map l.get = l.reverse := by
  rw [List.map_reverse, List.finRange_map_get]

/-- C2: if, on a register, every gate contained in a circuit satisfies its own
inverse law (its Invert after its Apply gives back every state), then Invert of the
circuit after Apply of the circuit gives back every state. -/
theorem Circuit.Invert_Apply_of_members {σ : Type} (comp : Computer σ) (c : Circuit)
    (h : ∀ g ∈ c, ∀ s, Gate.Invert comp g (Gate.Apply comp g s) = s) (s : σ) :
    Circuit.Invert comp c (Circuit.Apply comp c s) = s := by
  induction c using List.reverseRecOn with
  | nil => simp [Circuit.Apply_nil, Circuit.Invert_nil]
  | append_singleton rest g ih =>
    rw [Circuit.Apply_append, Circuit.Invert_append, Circuit.Apply_cons, Circuit.Apply_nil,
      Circuit.Invert_cons, Circuit.Invert_nil, h g (by simp)]
    exact ih (fun x hx => h x (by simp [hx]))

/-- C3: reversal law. On every register and state, Invert of the concatenation of two
circuits is Invert of the second followed by Invert of the first; and the register
calls it issues are those of the second circuit's Invert followed by those of the
first circuit's Invert. -/
theorem Circuit.Invert_append_reversal (a b : Circuit) :
    (∀ (σ : Type) (comp : Computer σ) (s : σ),
      Circuit.Invert comp (a ++ b) s = Circuit.Invert comp a (Circuit.Invert comp b s)) ∧
    Circuit.Invert recorder (a ++ b) [] =
      Circuit.Invert recorder b [] ++ Circuit.Invert recorder a [] := by
  refine ⟨fun σ comp s => Circuit.Invert_append comp a b s, ?_⟩
  rw [Circuit.Invert_append, Circuit.Invert_log]

/-- C4: Circuit.Apply invokes Apply on each member exactly once, in index order
0, 1, ..., len-1: on every register its effect is the left-to-right composition of the
members' Apply effects, and its register calls are the concatenation of the members'
Apply calls in that order. -/
theorem Circuit.Apply_forward_order (c : Circuit) :
    (∀ (σ : Type) (comp : Computer σ) (s : σ),
      Circuit.Apply comp c s =
        (List.finRange c.length).foldl (fun st i => Gate.Apply comp (c.get i) st) s) ∧
    Circuit.Apply recorder c [] =
      ((List.finRange c.length).map (fun i => Gate.Apply recorder (c.get i) [])).flatten := by
  constructor
  · intro σ comp s
    have e : (List.finRange c.length).foldl (fun st i => Gate.Apply comp (c.get i) st) s =
        ((List.finRange c.length).map c.get).foldl (fun st g => Gate.Apply comp g st) s := by
      rw [List.foldl_map]
    rw [e, List.finRange_map_get, Circuit.Apply_eq_foldl]
  · have e : (List.finRange c.length).map (fun i => Gate.Apply recorder (c.get i) []) =
        ((List.finRange c.length).map c.get).map (fun g => Gate.Apply recorder g []) := by
      rw [List.map_map]; rfl
    rw [e, List.finRange_map_get, Circuit.Apply_recorder_eq_flatten]

/-- C5: Circuit.Invert invokes Invert on each member exactly once, in index order
len-1, ..., 1, 0: on every register its effect is the composition of the members'
Invert effects in that order, and its register calls are the concatenation of the
members' Invert calls in that order. -/
theorem Circuit.Invert_reverse_order (c : Circuit) :
    (∀ (σ : Type) (comp : Computer σ) (s : σ),
      Circuit.Invert comp c s =
        (List.finRange c.length).reverse.foldl (fun st i => Gate.Invert comp (c.get i) st) s) ∧
    Circuit.Invert recorder c [] =
      ((List.finRange c.length).reverse.map
        (fun i => Gate.Invert recorder (c.get i) [])).flatten := by
  constructor
  · intro σ comp s
    have e : (List.finRange c.length).reverse.foldl
          (fun st i => Gate.Invert comp (c.get i) st) s =
        ((List.finRange c.length).reverse.map c.get).foldl
          (fun st g => Gate.Invert comp g st) s := by
      rw [List.foldl_map]
    rw [e, finRange_reverse_map_get, Circuit.Invert_eq_foldl_reverse]
  · have e : (List.finRange c.length).reverse.map (fun i => Gate.Invert recorder (c.get i) []) =
        ((List.finRange c.length).reverse.map c.get).map
          (fun g => Gate.Invert recorder g []) := by
      rw [List.map_map]; rfl
    rw [e, finRange_reverse_map_get, Circuit.Invert_recorder_eq_flatten]

/-- C10: YGate.Invert issues exactly four Pauli-Y register operations on its qubit, one
after the other, and nothing else: on every register it is Y applied four times, and
the recording register logs exactly four Y calls on that qubit. -/
theorem YGate.Invert_four_Y (b : Int) :
    (∀ (σ : Type) (comp : Computer σ) (s : σ),
      Gate.Invert comp (.YGate ⟨b⟩) s = comp.Y b (comp.Y b (comp.Y b (comp.Y b s)))) ∧
    (∀ log, Gate.Invert recorder (.YGate ⟨b⟩) log =
      log ++ [Call.Y b, Call.Y b, Call.Y b, Call.Y b]) := by
  constructor
  · intro σ comp s
    simp [Gate.Invert, YGate.Invert_eq]
  · intro log
    simp [Gate.Invert, YGate.Invert_eq, recorder]

/-! ## Rendering -/

theorem Circuit_parts_eq (c : List Gate) (parts : List String) :
    Circuit.parts c parts = parts ++ c.map Gate.String := by
  induction c generalizing parts with
  | nil => simp [Circuit.parts]
  | cons g rest ih => simp [Circuit.parts, ih]

theorem intercalate_go_eq_foldl (sep : String) (rest : List String) (acc : String) :
    String.intercalate.go acc sep rest = rest.foldl (fun b s => b ++ sep ++ s) acc := by
  induction rest generalizing acc with
  | nil => simp [String.intercalate.go]
  | cons x xs ih => simp [String.intercalate.go, ih]

theorem Join_eq_intercalate (elems : List String) (sep : String) :
    Join elems sep = sep.intercalate elems := by
  cases elems with
  | nil => simp [Join, String.intercalate]
  | cons e rest =>
    cases rest with
    | nil => simp [Join, String.intercalate, String.intercalate.go]
    | cons x xs => simp [Join, String.intercalate, intercalate_go_eq_foldl]

theorem foldl_append_eq_join (l : List String) (acc : String) :
    l.foldl (fun r s => r ++ s) acc = acc ++ String.join l := by
  induction l generalizing acc with
  | nil => simp [String.join]
  | cons x xs ih =>
    have hj : String.join (x :: xs) = x ++ String.join xs := by
      show List.foldl (fun r s => r ++ s) "" (x :: xs) = x ++ String.join xs
      rw [List.foldl_cons, ih]
      simp
    rw [List.foldl_cons, ih, hj, String.append_assoc]

theorem join_cons_eq (x : String) (xs : List String) :
    String.join (x :: xs) = x ++ String.join xs := by
  show List.foldl (fun r s => r ++ s) "" (x :: xs) = x ++ String.join xs
  rw [List.foldl_cons, foldl_append_eq_join]
  simp

theorem Join_cons (e : String) (rest : List String) (sep : String) :
    Join (e :: rest) sep = e ++ String.join (rest.map (fun s => sep ++ s)) := by
  have key : ∀ (l : List String) (acc : String),
      l.foldl (fun b s => b ++ sep ++ s) acc = acc ++ String.join (l.map (fun s => sep ++ s)) := by
    intro l
    induction l with
    | nil => intro acc; simp [String.join]
    | cons x xs ih =>
      intro acc
      rw [List.foldl_cons, ih, List.map_cons, join_cons_eq]
      simp [String.append_assoc]
  cases rest with
  | nil => simp [Join, String.join]
  | cons x xs => simpa [Join] using key (x :: xs) e

/-- C6: Circuit.String is the members' String results, in sequence order, joined by
exactly one space: it is the first member's String followed, for each further member,
by one space and that member's String (so no separator leads or trails); the empty
circuit renders as the empty string; and the circuit H(0), CNot(0, 1), T(1) renders as
"H(0) CNot(0, 1) T(1)". -/
theorem Circuit_String_joins_members :
    (∀ c : Circuit, Circuit.String c = " ".intercalate (c.map Gate.String)) ∧
    (∀ (g : Gate) (rest : Circuit),
      Circuit.String (g :: rest) =
        g.String ++ String.join (rest.map (fun m => " " ++ m.String))) ∧
    Circuit.String [] = "" ∧
    Circuit.String [.HGate ⟨0⟩, .CNotGate ⟨0, 1⟩, .TGate ⟨1, false⟩] =
      "H(0) CNot(0, 1) T(1)" := by
  refine ⟨?_, ?_, by decide, by decide⟩
  · intro c
    simp [Circuit.String, Circuit_parts_eq, Join_eq_intercalate]
  · intro g rest
    simp [Circuit.String, Circuit_parts_eq, Join_cons, List.map_map, Function.comp_def]

/-- C7: for all integers n, c, t, HGate with Bit n renders as "H(" + decimal n + ")",
TGate with Bit n renders as "T*(" + decimal n + ")" when Conjugate is true and as
"T(" + decimal n + ")" when it is false, and CNotGate renders as
"CNot(" + decimal c + ", " + decimal t + ")", a comma followed by one space; in
particular "H(2)", "T*(1)" and "CNot(0, 1)". -/
theorem Gate_String_primitive (n c t : Int) :
    Gate.String (.HGate ⟨n⟩) = "H(" ++ Itoa n ++ ")" ∧
    Gate.String (.TGate ⟨n, true⟩) = "T*(" ++ Itoa n ++ ")" ∧
    Gate.String (.TGate ⟨n, false⟩) = "T(" ++ Itoa n ++ ")" ∧
    Gate.String (.CNotGate ⟨c, t⟩) = "CNot(" ++ Itoa c ++ ", " ++ Itoa t ++ ")" ∧
    Gate.String (.HGate ⟨2⟩) = "H(2)" ∧
    Gate.String (.TGate ⟨1, true⟩) = "T*(1)" ∧
    Gate.String (.CNotGate ⟨0, 1⟩) = "CNot(0, 1)" := by
  refine ⟨?_, ?_, ?_, ?_, by decide, by decide, by decide⟩
  · simp [Gate.String, HGate.String]
  · have e : "T" ++ "*" ++ "(" = "T*(" := by decide
    simp only [Gate.String, TGate.String, if_true]
    rw [e]
  · have e : "T" ++ "" ++ "(" = "T(" := by decide
    simp only [Gate.String, TGate.String]
    simp only [Bool.false_eq_true, if_false]
    rw [e]
  · simp [Gate.String, CNotGate.String]

/-- C8, as the claim states it, fails: the controlled-NOT gate with control 0 and
target 1 does not render as the text with a bare comma. -/
theorem CNotGate_String_ne_bare_comma :
    CNotGate.String ⟨0, 1⟩ ≠ "CNot(0,1)" := by
  decide

/-- C8, amended: the controlled-NOT gate with control 0 and target 1 renders as
"CNot(0, 1)": the name, an opening parenthesis, the two arguments separated by a comma
and one space, a closing parenthesis. -/
theorem CNotGate_String_zero_one :
    CNotGate.String ⟨0, 1⟩ = "CNot(0, 1)" ∧
    CNotGate.String ⟨0, 1⟩ = "CNot" ++ "(" ++ Itoa 0 ++ "," ++ " " ++ Itoa 1 ++ ")" := by
  constructor <;> decide

/-! ## The phase matrices -/

/-- The ideal values of the two phase coefficients multiply to 1. -/
theorem Coef.exp_mul_exp_neg :
    Coef.expIPi4.toComplex * Coef.expNegIPi4.toComplex = 1 := by
  have e : (⟨0, Real.pi / 4⟩ : ℂ) + ⟨0, -Real.pi / 4⟩ = 0 := by
    apply Complex.ext <;> simp [neg_div]
  simp only [Coef.toComplex]
  rw [← Complex.exp_add, e, Complex.exp_zero]

/-- The complex128 values of the two phase coefficients multiply to a number just
below 1. -/
theorem Coef.toComplex128_conj_mul_plain :
    Coef.expNegIPi4.toComplex128 * Coef.expIPi4.toComplex128 =
      1 - 1646369651700551 / 2 ^ 106 := by
  apply Complex.ext
  · simp only [Coef.toComplex128, Coef.re, Coef.im, Complex.mul_re]
    norm_num
  · simp only [Coef.toComplex128, Coef.re, Coef.im, Complex.mul_im]
    norm_num

/-- The product of the two phase matrices the code passes, conjugate after plain. -/
theorem Coef.matrix_conj_mul_plain :
    Coef.matrix (.const 1) (.const 0) (.const 0) .expNegIPi4 *
      Coef.matrix (.const 1) (.const 0) (.const 0) .expIPi4 =
      !![1, 0; 0, 1 - 1646369651700551 / 2 ^ 106] := by
  have h := Coef.toComplex128_conj_mul_plain
  have h1 : (Coef.const 1).toComplex128 = 1 := by
    apply Complex.ext <;> simp [Coef.toComplex128, Coef.re, Coef.im]
  have h0 : (Coef.const 0).toComplex128 = 0 := by
    apply Complex.ext <;> simp [Coef.toComplex128, Coef.re, Coef.im]
  ext i j
  fin_cases i <;> fin_cases j <;>
    simp [Coef.matrix, Matrix.mul_apply, Fin.sum_univ_two, h1, h0]
  exact h

/-! ## The two-qubit register is ideal -/

theorem TwoQubit.act_one (b : Int) (s : TwoQubit) : TwoQubit.act b 1 s = s := by
  unfold TwoQubit.act
  split_ifs
  · funext i j; fin_cases i <;> simp [Matrix.one_apply]
  · funext i j; fin_cases j <;> simp [Matrix.one_apply]
  · rfl

theorem TwoQubit.act_mul (b : Int) (M N : Mat2) (s : TwoQubit) :
    TwoQubit.act b M (TwoQubit.act b N s) = TwoQubit.act b (M * N) s := by
  unfold TwoQubit.act
  split_ifs
  · funext i j; simp [Matrix.mul_apply, Fin.sum_univ_two]; ring
  · funext i j; simp [Matrix.mul_apply, Fin.sum_univ_two]; ring
  · rfl

theorem hadamardMatrix_mul_self : hadamardMatrix * hadamardMatrix = 1 := by
  have hsq : ((Real.sqrt 2 : ℝ) : ℂ) ^ 2 = 2 := by
    rw [← Complex.ofReal_pow, Real.sq_sqrt (by norm_num)]; simp
  ext i j
  fin_cases i <;> fin_cases j <;>
    simp [hadamardMatrix, Matrix.mul_apply, Fin.sum_univ_two]
  · ring_nf; rw [inv_pow, hsq]; norm_num
  · ring_nf; rw [inv_pow, hsq]; norm_num

theorem pauliX_mul_self : pauliX * pauliX = 1 := by
  ext i j
  fin_cases i <;> fin_cases j <;> simp [pauliX, Matrix.mul_apply, Fin.sum_univ_two]

theorem pauliY_mul_self : pauliY * pauliY = 1 := by
  ext i j
  fin_cases i <;> fin_cases j <;> simp [pauliY, Matrix.mul_apply, Fin.sum_univ_two]

theorem pauliZ_mul_self : pauliZ * pauliZ = 1 := by
  ext i j
  fin_cases i <;> fin_cases j <;> simp [pauliZ, Matrix.mul_apply, Fin.sum_univ_two]

theorem TwoQubit.cnot_cnot (c t : Int) (s : TwoQubit) :
    TwoQubit.cnot c t (TwoQubit.cnot c t s) = s := by
  unfold TwoQubit.cnot
  split_ifs
  · funext i j; fin_cases i <;> fin_cases j <;> rfl
  · funext i j; fin_cases i <;> fin_cases j <;> rfl
  · rfl

theorem twoQubit_ideal : twoQubit.Ideal where
  hadamard_hadamard b s := by
    simp [twoQubit, TwoQubit.act_mul, hadamardMatrix_mul_self, TwoQubit.act_one]
  x_x b s := by simp [twoQubit, TwoQubit.act_mul, pauliX_mul_self, TwoQubit.act_one]
  y_y b s := by simp [twoQubit, TwoQubit.act_mul, pauliY_mul_self, TwoQubit.act_one]
  z_z b s := by simp [twoQubit, TwoQubit.act_mul, pauliZ_mul_self, TwoQubit.act_one]
  cnot_cnot c t s := TwoQubit.cnot_cnot c t s
  unitary b := ⟨TwoQubit.act b, TwoQubit.act_one b, TwoQubit.act_mul b, fun _ _ _ _ _ => rfl⟩

/-! ## The inverse law of the primitive gates -/

/-- On a register whose Unitary primitive acts by matrix multiplication, Apply of the
plain phase gate followed by Apply of the conjugate one acts as the product of the two
matrices passed. -/
theorem TGate.conjugate_after_plain {σ : Type} (comp : Computer σ) (b : Int)
    (act : Mat2 → σ → σ) (hmul : ∀ M N s, act M (act N s) = act (M * N) s)
    (hU : ∀ m11 m12 m21 m22 s,
      comp.Unitary b m11 m12 m21 m22 s = act (Coef.matrix m11 m12 m21 m22) s) (s : σ) :
    Gate.Apply comp (.TGate ⟨b, true⟩) (Gate.Apply comp (.TGate ⟨b, false⟩) s) =
      act !![1, 0; 0, 1 - 1646369651700551 / 2 ^ 106] s := by
  simp only [Gate.Apply, TGate.Apply_conj, TGate.Invert_plain, TGate.Apply_plain, hU, hmul,
    Coef.matrix_conj_mul_plain]

/-- On an ideal register HGate, XGate, ZGate and CNotGate satisfy the inverse law in
both orders: Invert after Apply, and Apply after Invert, give back the state. -/
theorem Gate.inverse_law_primitive {σ : Type} (comp : Computer σ) (hI : comp.Ideal)
    (b c t : Int) (s : σ) :
    (Gate.Invert comp (.HGate ⟨b⟩) (Gate.Apply comp (.HGate ⟨b⟩) s) = s ∧
      Gate.Apply comp (.HGate ⟨b⟩) (Gate.Invert comp (.HGate ⟨b⟩) s) = s) ∧
    (Gate.Invert comp (.XGate ⟨b⟩) (Gate.Apply comp (.XGate ⟨b⟩) s) = s ∧
      Gate.Apply comp (.XGate ⟨b⟩) (Gate.Invert comp (.XGate ⟨b⟩) s) = s) ∧
    (Gate.Invert comp (.ZGate ⟨b⟩) (Gate.Apply comp (.ZGate ⟨b⟩) s) = s ∧
      Gate.Apply comp (.ZGate ⟨b⟩) (Gate.Invert comp (.ZGate ⟨b⟩) s) = s) ∧
    (Gate.Invert comp (.CNotGate ⟨c, t⟩) (Gate.Apply comp (.CNotGate ⟨c, t⟩) s) = s ∧
      Gate.Apply comp (.CNotGate ⟨c, t⟩) (Gate.Invert comp (.CNotGate ⟨c, t⟩) s) = s) := by
  refine ⟨?_, ?_, ?_, ?_⟩
  · simp [Gate.Apply, Gate.Invert, HGate.Apply, HGate.Invert, hI.hadamard_hadamard]
  · simp [Gate.Apply, Gate.Invert, XGate.Apply, XGate.Invert, hI.x_x]
  · simp [Gate.Apply, Gate.Invert, ZGate.Apply, ZGate.Invert, hI.z_z]
  · simp [Gate.Apply, Gate.Invert, CNotGate.Apply, CNotGate.Invert, hI.cnot_cnot]

/-- Where Y is an involution, Apply and Invert of a YGate compose, in either order, to a
single Y. -/
theorem YGate.Invert_Apply_eq_Y {σ : Type} (comp : Computer σ) (b : Int)
    (hY : ∀ s, comp.Y b (comp.Y b s) = s) (s : σ) :
    Gate.Invert comp (.YGate ⟨b⟩) (Gate.Apply comp (.YGate ⟨b⟩) s) = comp.Y b s ∧
    Gate.Apply comp (.YGate ⟨b⟩) (Gate.Invert comp (.YGate ⟨b⟩) s) = comp.Y b s := by
  simp [Gate.Apply, Gate.Invert, YGate.Apply, YGate.Invert_eq, hY]

theorem TwoQubit.Y_ket00 :
    twoQubit.Y 0 TwoQubit.ket00 = fun i j => if i = 1 ∧ j = 0 then Complex.I else 0 := by
  funext i j
  fin_cases i <;> fin_cases j <;> simp [twoQubit, TwoQubit.act, pauliY, TwoQubit.ket00]

theorem TwoQubit.Y_ket00_not_phase :
    ¬ ∃ phase : ℂ, twoQubit.Y 0 TwoQubit.ket00 = fun i j => phase * TwoQubit.ket00 i j := by
  rintro ⟨phase, h⟩
  rw [TwoQubit.Y_ket00] at h
  have h00 := congrFun (congrFun h 0) 0
  have h10 := congrFun (congrFun h 1) 0
  simp [TwoQubit.ket00] at h00 h10

/-- C1 fails for YGate. On the exact two-qubit register, which is ideal, YGate on
qubit 0 issues five Y calls over Apply followed by Invert, and from the basis state with
both qubits 0 neither Invert after Apply nor Apply after Invert comes back to that state,
not even up to a global phase. -/
theorem YGate_inverse_law_fails :
    twoQubit.Ideal ∧
    Gate.Invert recorder (.YGate ⟨0⟩) (Gate.Apply recorder (.YGate ⟨0⟩) []) =
      [Call.Y 0, Call.Y 0, Call.Y 0, Call.Y 0, Call.Y 0] ∧
    (¬ ∃ phase : ℂ,
      Gate.Invert twoQubit (.YGate ⟨0⟩) (Gate.Apply twoQubit (.YGate ⟨0⟩) TwoQubit.ket00) =
        fun i j => phase * TwoQubit.ket00 i j) ∧
    (¬ ∃ phase : ℂ,
      Gate.Apply twoQubit (.YGate ⟨0⟩) (Gate.Invert twoQubit (.YGate ⟨0⟩) TwoQubit.ket00) =
        fun i j => phase * TwoQubit.ket00 i j) := by
  have hY := YGate.Invert_Apply_eq_Y twoQubit 0 (twoQubit_ideal.y_y 0) TwoQubit.ket00
  refine ⟨twoQubit_ideal, by decide, ?_, ?_⟩
  · rw [hY.1]; exact TwoQubit.Y_ket00_not_phase
  · rw [hY.2]; exact TwoQubit.Y_ket00_not_phase

/-- Witness for C2: the circuit H(0), CNot(0, 1), X(1) on the exact two-qubit register,
whose members each satisfy the inverse law there, run from the uniform state. -/
theorem Circuit.Invert_Apply_of_members_witness :
    (∀ g ∈ ([.HGate ⟨0⟩, .CNotGate ⟨0, 1⟩, .XGate ⟨1⟩] : Circuit),
      ∀ s, Gate.Invert twoQubit g (Gate.Apply twoQubit g s) = s) ∧
    Circuit.Invert twoQubit [.HGate ⟨0⟩, .CNotGate ⟨0, 1⟩, .XGate ⟨1⟩]
      (Circuit.Apply twoQubit [.HGate ⟨0⟩, .CNotGate ⟨0, 1⟩, .XGate ⟨1⟩]
        TwoQubit.uniform) = TwoQubit.uniform :=
  have h : ∀ g ∈ ([.HGate ⟨0⟩, .CNotGate ⟨0, 1⟩, .XGate ⟨1⟩] : Circuit),
      ∀ s, Gate.Invert twoQubit g (Gate.Apply twoQubit g s) = s := by
    intro g hg s
    simp only [List.mem_cons, List.mem_singleton, List.not_mem_nil, or_false] at hg
    rcases hg with rfl | rfl | rfl
    · exact (Gate.inverse_law_primitive twoQubit twoQubit_ideal 0 0 1 s).1.1
    · exact (Gate.inverse_law_primitive twoQubit twoQubit_ideal 0 0 1 s).2.2.2.1
    · exact (Gate.inverse_law_primitive twoQubit twoQubit_ideal 1 0 1 s).2.1.1
  ⟨h, Circuit.Invert_Apply_of_members twoQubit _ h TwoQubit.uniform⟩

/-- C9, as the claim states it, fails. The exact two-qubit register multiplies by the
matrices it receives on qubit 1, and there Apply of TGate with Conjugate false followed
by Apply of TGate with Conjugate true does not give back the uniform state: the
amplitudes with qubit 1 set come back multiplied by 1 - 1646369651700551 / 2^106. -/
theorem TGate_Apply_conjugate_not_identity :
    twoQubit.UnitaryIsMatrixAction 1 ∧
    Gate.Apply twoQubit (.TGate ⟨1, true⟩) (Gate.Apply twoQubit (.TGate ⟨1, false⟩)
      TwoQubit.uniform) ≠ TwoQubit.uniform ∧
    Gate.Apply twoQubit (.TGate ⟨1, true⟩) (Gate.Apply twoQubit (.TGate ⟨1, false⟩)
      TwoQubit.uniform) 0 1 = (1 - 1646369651700551 / 2 ^ 106) * (1 / 2) := by
  have h := TGate.conjugate_after_plain twoQubit 1 (TwoQubit.act 1) (TwoQubit.act_mul 1)
    (fun _ _ _ _ _ => rfl) TwoQubit.uniform
  have hv : Gate.Apply twoQubit (.TGate ⟨1, true⟩) (Gate.Apply twoQubit (.TGate ⟨1, false⟩)
      TwoQubit.uniform) 0 1 = (1 - 1646369651700551 / 2 ^ 106) * (1 / 2) := by
    rw [h]
    simp [TwoQubit.act, TwoQubit.uniform]
  refine ⟨twoQubit_ideal.unitary 1, ?_, hv⟩
  intro heq
  rw [heq] at hv
  simp only [TwoQubit.uniform] at hv
  norm_num at hv

/-- C9, amended: phase-gate adjoint law up to the rounding of the coefficients. On a
register whose Unitary primitive acts on qubit b by exact complex 2x2 matrix
multiplication (acting with N and then with M is acting with M * N, and a Unitary call
acts with the matrix it receives), Apply of TGate with Conjugate false followed by Apply of TGate with
Conjugate true, both on qubit b, acts on every state as the diagonal matrix
diag(1, 1 - 1646369651700551 / 2^106). That matrix is the product of the two matrices
passed, diag(1, c) and diag(1, conjugate of c), with c the complex128 value
(6369051672525773 + 6369051672525772 i) / 2^53 of the plain gate's coefficient; its
second entry is below 1 by less than 2^-55; and the ideal values e^(i*pi/4) and
e^(-i*pi/4) of the two coefficients multiply to exactly 1. -/
theorem TGate.Apply_then_Apply_conjugate_rounded {σ : Type} (comp : Computer σ) (b : Int)
    (act : Mat2 → σ → σ) (hmul : ∀ M N s, act M (act N s) = act (M * N) s)
    (hU : ∀ m11 m12 m21 m22 s,
      comp.Unitary b m11 m12 m21 m22 s = act (Coef.matrix m11 m12 m21 m22) s) (s : σ) :
    Gate.Apply comp (.TGate ⟨b, true⟩) (Gate.Apply comp (.TGate ⟨b, false⟩) s) =
      act !![1, 0; 0, 1 - 1646369651700551 / 2 ^ 106] s ∧
    Coef.matrix (.const 1) (.const 0) (.const 0) .expNegIPi4 *
      Coef.matrix (.const 1) (.const 0) (.const 0) .expIPi4 =
      !![1, 0; 0, 1 - 1646369651700551 / 2 ^ 106] ∧
    (Coef.expIPi4.toComplex128 = ⟨6369051672525773 / 2 ^ 53, 6369051672525772 / 2 ^ 53⟩ ∧
      Coef.expNegIPi4.toComplex128 =
        ⟨6369051672525773 / 2 ^ 53, -(6369051672525772 / 2 ^ 53)⟩) ∧
    ((0 : ℝ) < 1646369651700551 / 2 ^ 106 ∧ (1646369651700551 : ℝ) / 2 ^ 106 < 1 / 2 ^ 55) ∧
    Coef.expIPi4.toComplex * Coef.expNegIPi4.toComplex = 1 := by
  refine ⟨TGate.conjugate_after_plain comp b act hmul hU s, Coef.matrix_conj_mul_plain,
    ⟨?_, ?_⟩, ⟨by norm_num, by norm_num⟩, Coef.exp_mul_exp_neg⟩
  · apply Complex.ext <;> simp [Coef.toComplex128, Coef.re, Coef.im] <;> norm_num
  · apply Complex.ext <;> simp [Coef.toComplex128, Coef.re, Coef.im] <;> norm_num

/-- Witness for C9: qubit 1 of the exact two-qubit register, from the uniform state. -/
theorem TGate.Apply_then_Apply_conjugate_rounded_witness :
    (∀ M N s, TwoQubit.act 1 M (TwoQubit.act 1 N s) = TwoQubit.act 1 (M * N) s) ∧
    (∀ m11 m12 m21 m22 s,
      twoQubit.Unitary 1 m11 m12 m21 m22 s =
        TwoQubit.act 1 (Coef.matrix m11 m12 m21 m22) s) ∧
    Gate.Apply twoQubit (.TGate ⟨1, true⟩) (Gate.Apply twoQubit (.TGate ⟨1, false⟩)
      TwoQubit.uniform) =
      TwoQubit.act 1 !![1, 0; 0, 1 - 1646369651700551 / 2 ^ 106] TwoQubit.uniform :=
  ⟨TwoQubit.act_mul 1, fun _ _ _ _ _ => rfl,
    (TGate.Apply_then_Apply_conjugate_rounded twoQubit 1 (TwoQubit.act 1)
      (TwoQubit.act_mul 1) (fun _ _ _ _ _ => rfl) TwoQubit.uniform).1⟩

/-! ## The Pauli-Y gate's Invert -/

/-- C11: on a register whose Pauli-Y primitive is an involution on qubit b, Invert of
YGate on b gives back every state unchanged, so it is not the inverse of Apply: on
every state that a single Y changes, Invert and Apply differ, and Invert after Apply
does not come back to that state. -/
theorem YGate.Invert_is_identity {σ : Type} (comp : Computer σ) (b : Int)
    (hY : ∀ s, comp.Y b (comp.Y b s) = s) :
    (∀ s, Gate.Invert comp (.YGate ⟨b⟩) s = s) ∧
    (∀ s, comp.Y b s ≠ s →
      Gate.Invert comp (.YGate ⟨b⟩) s ≠ Gate.Apply comp (.YGate ⟨b⟩) s) ∧
    (∀ s, comp.Y b s ≠ s →
      Gate.Invert comp (.YGate ⟨b⟩) (Gate.Apply comp (.YGate ⟨b⟩) s) ≠ s) := by
  have hid : ∀ s, Gate.Invert comp (.YGate ⟨b⟩) s = s := by
    intro s
    simp [Gate.Invert, YGate.Invert_eq, hY]
  refine ⟨hid, ?_, ?_⟩
  · intro s hs h
    rw [hid] at h
    exact hs (by simpa [Gate.Apply, YGate.Apply] using h.symm)
  · intro s hs h
    rw [hid] at h
    exact hs (by simpa [Gate.Apply, YGate.Apply] using h)

theorem TwoQubit.Y_ket00_ne : twoQubit.Y 0 TwoQubit.ket00 ≠ TwoQubit.ket00 := by
  intro h
  rw [TwoQubit.Y_ket00] at h
  have h00 := congrFun (congrFun h 0) 0
  simp [TwoQubit.ket00] at h00

/-- Witness for C11: qubit 0 of the exact two-qubit register and the basis state with
both qubits 0, which a single Y changes. -/
theorem YGate.Invert_is_identity_witness :
    (∀ s, twoQubit.Y 0 (twoQubit.Y 0 s) = s) ∧
    twoQubit.Y 0 TwoQubit.ket00 ≠ TwoQubit.ket00 ∧
    Gate.Invert twoQubit (.YGate ⟨0⟩) TwoQubit.ket00 = TwoQubit.ket00 ∧
    Gate.Invert twoQubit (.YGate ⟨0⟩) TwoQubit.ket00 ≠
      Gate.Apply twoQubit (.YGate ⟨0⟩) TwoQubit.ket00 ∧
    Gate.Invert twoQubit (.YGate ⟨0⟩) (Gate.Apply twoQubit (.YGate ⟨0⟩) TwoQubit.ket00) ≠
      TwoQubit.ket00 :=
  ⟨twoQubit_ideal.y_y 0, TwoQubit.Y_ket00_ne,
    (YGate.Invert_is_identity twoQubit 0 (twoQubit_ideal.y_y 0)).1 TwoQubit.ket00,
    (YGate.Invert_is_identity twoQubit 0 (twoQubit_ideal.y_y 0)).2.1 TwoQubit.ket00
      TwoQubit.Y_ket00_ne,
    (YGate.Invert_is_identity twoQubit 0 (twoQubit_ideal.y_y 0)).2.2 TwoQubit.ket00
      TwoQubit.Y_ket00_ne⟩

/-! ## Nesting, concatenation and the empty circuit -/

/-- C12: a circuit is a gate (the constructor `Gate.Circuit`, whose Apply and Invert are
the circuit's), and nesting does not change execution: the circuit made of the gates
of a, then b as one member, then the gates of c has, on every register, the same Apply
effect and the same Invert effect as the flat concatenation of a, b and c, and issues
the same register calls. -/
theorem Circuit.nested_execution (a b c : Circuit) :
    (∀ (σ : Type) (comp : Computer σ) (s : σ),
      Gate.Apply comp (Gate.Circuit b) s = Circuit.Apply comp b s ∧
      Gate.Invert comp (Gate.Circuit b) s = Circuit.Invert comp b s) ∧
    (∀ (σ : Type) (comp : Computer σ) (s : σ),
      Circuit.Apply comp (a ++ [Gate.Circuit b] ++ c) s = Circuit.Apply comp (a ++ b ++ c) s) ∧
    (∀ (σ : Type) (comp : Computer σ) (s : σ),
      Circuit.Invert comp (a ++ [Gate.Circuit b] ++ c) s =
        Circuit.Invert comp (a ++ b ++ c) s) ∧
    Circuit.Apply recorder (a ++ [Gate.Circuit b] ++ c) [] =
      Circuit.Apply recorder (a ++ b ++ c) [] ∧
    Circuit.Invert recorder (a ++ [Gate.Circuit b] ++ c) [] =
      Circuit.Invert recorder (a ++ b ++ c) [] := by
  have hA : ∀ (σ : Type) (comp : Computer σ) (s : σ),
      Circuit.Apply comp (a ++ [Gate.Circuit b] ++ c) s =
        Circuit.Apply comp (a ++ b ++ c) s := by
    intro σ comp s
    simp only [Circuit.Apply_append, Circuit.Apply_cons, Circuit.Apply_nil, Gate.Apply_Circuit]
  have hI : ∀ (σ : Type) (comp : Computer σ) (s : σ),
      Circuit.Invert comp (a ++ [Gate.Circuit b] ++ c) s =
        Circuit.Invert comp (a ++ b ++ c) s := by
    intro σ comp s
    simp only [Circuit.Invert_append, Circuit.Invert_cons, Circuit.Invert_nil,
      Gate.Invert_Circuit]
  exact ⟨fun σ comp s => ⟨Gate.Apply_Circuit comp b s, Gate.Invert_Circuit comp b s⟩,
    hA, hI, hA _ recorder [], hI _ recorder []⟩

/-- C16: Circuit.Apply maps concatenation of circuits to sequencing of register
transforms. The empty circuit's Apply and Invert leave every state unchanged and issue
no register call, and Apply of the concatenation of a and b is Apply of a followed by
Apply of b; its register calls are those of a followed by those of b. -/
theorem Circuit.Apply_monoid_hom (a b : Circuit) :
    (∀ (σ : Type) (comp : Computer σ) (s : σ),
      Circuit.Apply comp [] s = s ∧ Circuit.Invert comp [] s = s) ∧
    (∀ log, Circuit.Apply recorder [] log = log ∧ Circuit.Invert recorder [] log = log) ∧
    (∀ (σ : Type) (comp : Computer σ) (s : σ),
      Circuit.Apply comp (a ++ b) s = Circuit.Apply comp b (Circuit.Apply comp a s)) ∧
    Circuit.Apply recorder (a ++ b) [] =
      Circuit.Apply recorder a [] ++ Circuit.Apply recorder b [] := by
  refine ⟨fun σ comp s => ⟨Circuit.Apply_nil comp s, Circuit.Invert_nil comp s⟩,
    fun log => ⟨Circuit.Apply_nil recorder log, Circuit.Invert_nil recorder log⟩,
    fun σ comp s => Circuit.Apply_append comp a b s, ?_⟩
  rw [Circuit.Apply_append, Circuit.Apply_log]

/-! ## The calls of the primitive gates -/

theorem Coef.toComplex_values :
    Coef.toComplex (.const 1) = 1 ∧ Coef.toComplex (.const 0) = 0 ∧
    Coef.toComplex .expIPi4 = Complex.exp (Complex.I * ((Real.pi / 4 : ℝ) : ℂ)) ∧
    Coef.toComplex .expNegIPi4 = Complex.exp (Complex.I * ((-(Real.pi / 4) : ℝ) : ℂ)) := by
  refine ⟨by simp [Coef.toComplex], by simp [Coef.toComplex], ?_, ?_⟩
  · simp only [Coef.toComplex]
    congr 1
    apply Complex.ext <;> simp
  · simp only [Coef.toComplex]
    congr 1
    apply Complex.ext <;> simp [neg_div]

/-- C13: the phase gate issues exactly one Unitary call on its qubit b, with
coefficients (1, 0, 0, e^(i*theta)): theta is +pi/4 for Apply with Conjugate false and
for Invert with Conjugate true, and -pi/4 for Invert with Conjugate false and for Apply
with Conjugate true. So, on every register, Apply of the conjugate gate is Invert of the
plain gate and Invert of the conjugate gate is Apply of the plain gate. -/
theorem TGate.single_Unitary_call (b : Int) :
    (∀ log, Gate.Apply recorder (.TGate ⟨b, false⟩) log =
      log ++ [Call.Unitary b (.const 1) (.const 0) (.const 0) .expIPi4]) ∧
    (∀ log, Gate.Invert recorder (.TGate ⟨b, true⟩) log =
      log ++ [Call.Unitary b (.const 1) (.const 0) (.const 0) .expIPi4]) ∧
    (∀ log, Gate.Invert recorder (.TGate ⟨b, false⟩) log =
      log ++ [Call.Unitary b (.const 1) (.const 0) (.const 0) .expNegIPi4]) ∧
    (∀ log, Gate.Apply recorder (.TGate ⟨b, true⟩) log =
      log ++ [Call.Unitary b (.const 1) (.const 0) (.const 0) .expNegIPi4]) ∧
    (∀ (σ : Type) (comp : Computer σ) (s : σ),
      Gate.Apply comp (.TGate ⟨b, true⟩) s = Gate.Invert comp (.TGate ⟨b, false⟩) s ∧
      Gate.Invert comp (.TGate ⟨b, true⟩) s = Gate.Apply comp (.TGate ⟨b, false⟩) s) ∧
    (Coef.toComplex (.const 1) = 1 ∧ Coef.toComplex (.const 0) = 0 ∧
      Coef.toComplex .expIPi4 = Complex.exp (Complex.I * ((Real.pi / 4 : ℝ) : ℂ)) ∧
      Coef.toComplex .expNegIPi4 = Complex.exp (Complex.I * ((-(Real.pi / 4) : ℝ) : ℂ))) := by
  refine ⟨?_, ?_, ?_, ?_, ?_, Coef.toComplex_values⟩
  · intro log; simp [Gate.Apply, TGate.Apply_plain, recorder]
  · intro log; simp [Gate.Invert, TGate.Invert_conj, TGate.Apply_plain, recorder]
  · intro log; simp [Gate.Invert, TGate.Invert_plain, recorder]
  · intro log; simp [Gate.Apply, TGate.Apply_conj, TGate.Invert_plain, recorder]
  · intro σ comp s
    simp [Gate.Apply, Gate.Invert, TGate.Apply_conj, TGate.Invert_conj]

/-- C14: for HGate, XGate, ZGate and CNotGate, with any qubit indices, Invert performs
the same single register operation as Apply (Hadamard, X, Z on Bit; CNot with Control
and Target in that order), so Invert and Apply are the same transform on every
register. -/
theorem Gate.Invert_eq_Apply_self_inverse (b c t : Int) :
    (∀ (σ : Type) (comp : Computer σ) (s : σ),
      (Gate.Invert comp (.HGate ⟨b⟩) s = Gate.Apply comp (.HGate ⟨b⟩) s ∧
        Gate.Apply comp (.HGate ⟨b⟩) s = comp.Hadamard b s) ∧
      (Gate.Invert comp (.XGate ⟨b⟩) s = Gate.Apply comp (.XGate ⟨b⟩) s ∧
        Gate.Apply comp (.XGate ⟨b⟩) s = comp.X b s) ∧
      (Gate.Invert comp (.ZGate ⟨b⟩) s = Gate.Apply comp (.ZGate ⟨b⟩) s ∧
        Gate.Apply comp (.ZGate ⟨b⟩) s = comp.Z b s) ∧
      (Gate.Invert comp (.CNotGate ⟨c, t⟩) s = Gate.Apply comp (.CNotGate ⟨c, t⟩) s ∧
        Gate.Apply comp (.CNotGate ⟨c, t⟩) s = comp.CNot c t s)) ∧
    (Gate.Invert recorder (.HGate ⟨b⟩) [] = [Call.Hadamard b] ∧
      Gate.Apply recorder (.HGate ⟨b⟩) [] = [Call.Hadamard b]) ∧
    (Gate.Invert recorder (.XGate ⟨b⟩) [] = [Call.X b] ∧
      Gate.Apply recorder (.XGate ⟨b⟩) [] = [Call.X b]) ∧
    (Gate.Invert recorder (.ZGate ⟨b⟩) [] = [Call.Z b] ∧
      Gate.Apply recorder (.ZGate ⟨b⟩) [] = [Call.Z b]) ∧
    (Gate.Invert recorder (.CNotGate ⟨c, t⟩) [] = [Call.CNot c t] ∧
      Gate.Apply recorder (.CNotGate ⟨c, t⟩) [] = [Call.CNot c t]) := by
  refine ⟨fun σ comp s => ⟨⟨rfl, rfl⟩, ⟨rfl, rfl⟩, ⟨rfl, rfl⟩, ⟨rfl, rfl⟩⟩,
    ⟨rfl, rfl⟩, ⟨rfl, rfl⟩, ⟨rfl, rfl⟩, ⟨rfl, rfl⟩⟩

/-! ## The index of `Circuit.Invert` stays inside the circuit -/

theorem Circuit.InvertLoop_neg {σ : Type} (comp : Computer σ) (c : List Gate)
    (r : List Int × σ) : Circuit.InvertLoop comp c (-1) r = some r := by
  rw [Circuit.InvertLoop]; simp

theorem Circuit.InvertLoop_step {σ : Type} (comp : Computer σ) (c : List Gate) (n : Nat)
    (r : List Int × σ) :
    Circuit.InvertLoop comp c (n : Int) r =
      match (c)[n]? with
      | some g => Circuit.InvertLoop comp c ((n : Int) - 1) (r.1 ++ [(n : Int)],
          Gate.Invert comp g r.2)
      | none => none := by
  rw [Circuit.InvertLoop]; simp

theorem Circuit.InvertLoop_take {σ : Type} (comp : Computer σ) (c : List Gate) (n : Nat)
    (hn : n ≤ c.length) (used : List Int) (s : σ) :
    Circuit.InvertLoop comp c ((n : Int) - 1) (used, s) =
      some (used ++ (List.range n).reverse.map Int.ofNat,
        Circuit.Invert comp (c.take n) s) := by
  induction n generalizing used s with
  | zero => simp [Circuit.InvertLoop_neg, Circuit.Invert_nil]
  | succ n ih =>
    have hlt : n < c.length := hn
    have e : ((n + 1 : Nat) : Int) - 1 = (n : Int) := by omega
    rw [e, Circuit.InvertLoop_step, List.getElem?_eq_getElem hlt]
    simp only
    rw [ih (Nat.le_of_lt hlt), List.take_succ, List.getElem?_eq_getElem hlt,
      Circuit.Invert_append]
    simp [Circuit.Invert_cons, Circuit.Invert_nil, List.range_succ]

/-- C15: Circuit.String, Circuit.Apply and Circuit.Invert are total functions of the
circuit (and of the register state). Run with its index, the loop of Circuit.Invert never
indexes outside the circuit: on every circuit, register and state it ends with the
result of Circuit.Invert, having used exactly the indices len-1, ..., 1, 0, each of them
at least 0 and below the length; on the empty circuit it uses no index, and
Circuit.Apply and Circuit.Invert issue no register call. -/
theorem Circuit.Invert_index_in_range (c : Circuit) :
    (∀ (σ : Type) (comp : Computer σ) (s : σ),
      Circuit.InvertIndexed comp c s =
        some ((List.range c.length).reverse.map Int.ofNat, Circuit.Invert comp c s)) ∧
    (∀ i ∈ (List.range c.length).reverse.map Int.ofNat, 0 ≤ i ∧ i < (c.length : Int)) ∧
    (∀ (σ : Type) (comp : Computer σ) (s : σ),
      Circuit.InvertIndexed comp [] s = some ([], s)) ∧
    (∀ log, Circuit.Invert recorder [] log = log ∧ Circuit.Apply recorder [] log = log) := by
  refine ⟨?_, ?_, ?_, ?_⟩
  · intro σ comp s
    have h := Circuit.InvertLoop_take comp c c.length (Nat.le_refl _) [] s
    simpa [Circuit.InvertIndexed] using h
  · intro i hi
    simp only [List.mem_map, List.mem_reverse, List.mem_range] at hi
    obtain ⟨k, hk, rfl⟩ := hi
    exact ⟨Int.ofNat_nonneg k, Int.ofNat_lt.2 hk⟩
  · intro σ comp s
    simp [Circuit.InvertIndexed, Circuit.InvertLoop_neg]
  · intro log
    exact ⟨Circuit.Invert_nil recorder log, Circuit.Apply_nil recorder log⟩

/-! ## Gates address only their own qubits -/

theorem Circuit.qubits_eq (c : List Gate) :
    Circuit.qubits c = (c.map Gate.qubits).flatten := by
  induction c with
  | nil => simp [Circuit.qubits]
  | cons g rest ih => simp [Circuit.qubits, ih]

/-- Every call of a primitive gate, forwards or backwards, mentions exactly the qubits
stored in the gate. -/
theorem Gate.calls_qubits_primitive (g : Gate) (hg : g.isPrimitive = true) (call : Call)
    (h : call ∈ Gate.Apply recorder g [] ∨ call ∈ Gate.Invert recorder g []) :
    call.qubits = g.qubits := by
  cases g with
  | HGate x =>
    simp [Gate.Apply, Gate.Invert, HGate.Apply, HGate.Invert, recorder] at h
    subst h; rfl
  | TGate t =>
    obtain ⟨b, conj⟩ := t
    cases conj <;>
      simp [Gate.Apply, Gate.Invert, TGate.Apply_plain, TGate.Apply_conj, TGate.Invert_plain,
        TGate.Invert_conj, recorder] at h <;>
      rcases h with h | h <;> subst h <;> rfl
  | XGate x =>
    simp [Gate.Apply, Gate.Invert, XGate.Apply, XGate.Invert, recorder] at h
    subst h; rfl
  | YGate y =>
    simp [Gate.Apply, Gate.Invert, YGate.Apply, YGate.Invert_eq, recorder] at h
    subst h; rfl
  | ZGate z =>
    simp [Gate.Apply, Gate.Invert, ZGate.Apply, ZGate.Invert, recorder] at h
    subst h; rfl
  | CNotGate x =>
    simp [Gate.Apply, Gate.Invert, CNotGate.Apply, CNotGate.Invert, recorder] at h
    subst h; rfl
  | Circuit c => simp [Gate.isPrimitive] at hg

/-- C19: in a circuit of primitive gates, every register call issued by Circuit.Apply or
by Circuit.Invert is issued by a member gate and mentions exactly the qubit indices
stored in that member (Bit for a single-qubit gate, also for a conjugate TGate that
hands over to the plain one; Control and Target in that order for a CNotGate); so every
qubit index the call mentions occurs in the circuit. -/
theorem Circuit.calls_address_member_qubits (c : Circuit)
    (hc : ∀ g ∈ c, g.isPrimitive = true) (call : Call)
    (h : call ∈ Circuit.Apply recorder c [] ∨ call ∈ Circuit.Invert recorder c []) :
    (∃ g ∈ c, (call ∈ Gate.Apply recorder g [] ∨ call ∈ Gate.Invert recorder g []) ∧
      call.qubits = g.qubits) ∧
    ∀ q ∈ call.qubits, q ∈ Circuit.qubits c := by
  have hmem : ∃ g ∈ c, call ∈ Gate.Apply recorder g [] ∨ call ∈ Gate.Invert recorder g [] := by
    rcases h with h | h
    · rw [Circuit.Apply_recorder_eq_flatten] at h
      simp only [List.mem_flatten, List.mem_map] at h
      obtain ⟨l, ⟨g, hg, rfl⟩, hcall⟩ := h
      exact ⟨g, hg, Or.inl hcall⟩
    · rw [Circuit.Invert_recorder_eq_flatten] at h
      simp only [List.mem_flatten, List.mem_map, List.mem_reverse] at h
      obtain ⟨l, ⟨g, hg, rfl⟩, hcall⟩ := h
      exact ⟨g, hg, Or.inr hcall⟩
  obtain ⟨g, hg, hcall⟩ := hmem
  have hq := Gate.calls_qubits_primitive g (hc g hg) call hcall
  refine ⟨⟨g, hg, hcall, hq⟩, ?_⟩
  intro q hqm
  rw [Circuit.qubits_eq]
  simp only [List.mem_flatten, List.mem_map]
  exact ⟨g.qubits, ⟨g, hg, rfl⟩, hq ▸ hqm⟩

/-- Witness for C19: the circuit H(0), CNot(0, 1), T*(1), run backwards, issues the
Unitary call of the conjugate phase gate on qubit 1. -/
theorem Circuit.calls_address_member_qubits_witness :
    (∀ g ∈ ([.HGate ⟨0⟩, .CNotGate ⟨0, 1⟩, .TGate ⟨1, true⟩] : Circuit),
      g.isPrimitive = true) ∧
    Call.Unitary 1 (.const 1) (.const 0) (.const 0) .expIPi4 ∈
      Circuit.Invert recorder [.HGate ⟨0⟩, .CNotGate ⟨0, 1⟩, .TGate ⟨1, true⟩] [] ∧
    (∃ g ∈ ([.HGate ⟨0⟩, .CNotGate ⟨0, 1⟩, .TGate ⟨1, true⟩] : Circuit),
      (Call.Unitary 1 (.const 1) (.const 0) (.const 0) .expIPi4 ∈ Gate.Apply recorder g [] ∨
        Call.Unitary 1 (.const 1) (.const 0) (.const 0) .expIPi4 ∈
          Gate.Invert recorder g []) ∧
      (Call.Unitary 1 (.const 1) (.const 0) (.const 0) .expIPi4).qubits = g.qubits) ∧
    ∀ q ∈ (Call.Unitary 1 (.const 1) (.const 0) (.const 0) .expIPi4).qubits,
      q ∈ Circuit.qubits [.HGate ⟨0⟩, .CNotGate ⟨0, 1⟩, .TGate ⟨1, true⟩] :=
  have hc : ∀ g ∈ ([.HGate ⟨0⟩, .CNotGate ⟨0, 1⟩, .TGate ⟨1, true⟩] : Circuit),
      g.isPrimitive = true := by
    intro g hg
    simp only [List.mem_cons, List.mem_singleton, List.not_mem_nil, or_false] at hg
    rcases hg with rfl | rfl | rfl <;> rfl
  have hcall : Call.Unitary 1 (.const 1) (.const 0) (.const 0) .expIPi4 ∈
      Circuit.Invert recorder [.HGate ⟨0⟩, .CNotGate ⟨0, 1⟩, .TGate ⟨1, true⟩] [] := by
    simp [Circuit.Invert_cons, Circuit.Invert_nil, Gate.Invert, HGate.Invert, CNotGate.Invert,
      TGate.Invert_conj, TGate.Apply_plain, recorder]
  ⟨hc, hcall, Circuit.calls_address_member_qubits _ hc _ (Or.inr hcall)⟩

/-! ## Rendering of nested and concatenated circuits -/

theorem join_append_eq (xs ys : List String) :
    String.join (xs ++ ys) = String.join xs ++ String.join ys := by
  induction xs with
  | nil => simp [String.join]
  | cons x rest ih => simp [join_cons_eq, ih, String.append_assoc]

theorem Join_append (xs ys : List String) (sep : String) (hx : xs ≠ []) (hy : ys ≠ []) :
    Join (xs ++ ys) sep = Join xs sep ++ sep ++ Join ys sep := by
  obtain ⟨x, xr, rfl⟩ := List.exists_cons_of_ne_nil hx
  obtain ⟨y, yr, rfl⟩ := List.exists_cons_of_ne_nil hy
  rw [List.cons_append, Join_cons, Join_cons, Join_cons, List.map_append, join_append_eq,
    List.map_cons, join_cons_eq]
  simp [String.append_assoc]

theorem Join_singleton_middle (xs ys zs : List String) (sep : String) (hy : ys ≠ []) :
    Join (xs ++ [Join ys sep] ++ zs) sep = Join (xs ++ ys ++ zs) sep := by
  obtain ⟨y, yr, rfl⟩ := List.exists_cons_of_ne_nil hy
  cases xs with
  | nil =>
    simp only [List.nil_append, List.cons_append, Join_cons, List.map_append, join_append_eq]
    simp [String.append_assoc]
  | cons x xr =>
    simp only [List.cons_append, Join_cons, List.map_append, List.map_cons, List.map_nil,
      join_append_eq, join_cons_eq]
    simp [String.append_assoc, String.join]

theorem Circuit_String_eq_Join (c : List Gate) :
    Circuit.String c = Join (c.map Gate.String) " " := by
  simp [Circuit.String, Circuit_parts_eq]

/-- C18: rendering sees through the nesting of a non-empty sub-circuit. For circuits a,
b, c with b non-empty, the circuit made of the gates of a, then b as one member, then
the gates of c renders as the flat concatenation of a, b and c; with an empty
sub-circuit it need not (H(0) followed by an empty circuit renders with a trailing
space). The concatenation of two non-empty circuits renders as the first, one space,
the second; if one of them is empty it renders as the other. -/
theorem Circuit_String_nesting (a b c : Circuit) :
    (b ≠ [] →
      Circuit.String (a ++ [Gate.Circuit b] ++ c) = Circuit.String (a ++ b ++ c)) ∧
    (a ≠ [] → b ≠ [] →
      Circuit.String (a ++ b) = Circuit.String a ++ " " ++ Circuit.String b) ∧
    (a = [] → Circuit.String (a ++ b) = Circuit.String b) ∧
    (b = [] → Circuit.String (a ++ b) = Circuit.String a) ∧
    Circuit.String [.HGate ⟨0⟩, Gate.Circuit []] = "H(0) " ∧
    Circuit.String [.HGate ⟨0⟩] = "H(0)" := by
  refine ⟨?_, ?_, ?_, ?_, by decide, by decide⟩
  · intro hb
    have hb2 : b.map Gate.String ≠ [] := by simpa using hb
    have h := Join_singleton_middle (a.map Gate.String) (b.map Gate.String)
      (c.map Gate.String) " " hb2
    simpa [Circuit_String_eq_Join, Gate.String_Circuit] using h
  · intro ha hb
    have ha2 : a.map Gate.String ≠ [] := by simpa using ha
    have hb2 : b.map Gate.String ≠ [] := by simpa using hb
    have h := Join_append (a.map Gate.String) (b.map Gate.String) " " ha2 hb2
    simpa [Circuit_String_eq_Join] using h
  · intro ha; subst ha; rfl
  · intro hb; subst hb; simp

/-- Witness for C18: a is H(0), b is X(1) followed by an empty circuit, c is Z(2). -/
theorem Circuit_String_nesting_witness :
    ([.XGate ⟨1⟩, Gate.Circuit []] : Circuit) ≠ [] ∧ ([.HGate ⟨0⟩] : Circuit) ≠ [] ∧
    Circuit.String ([.HGate ⟨0⟩] ++ [Gate.Circuit [.XGate ⟨1⟩, Gate.Circuit []]] ++
        [.ZGate ⟨2⟩]) =
      Circuit.String ([.HGate ⟨0⟩] ++ [.XGate ⟨1⟩, Gate.Circuit []] ++ [.ZGate ⟨2⟩]) ∧
    Circuit.String ([.HGate ⟨0⟩] ++ [.XGate ⟨1⟩, Gate.Circuit []]) =
      Circuit.String [.HGate ⟨0⟩] ++ " " ++ Circuit.String [.XGate ⟨1⟩, Gate.Circuit []] :=
  ⟨List.cons_ne_nil _ _, List.cons_ne_nil _ _,
    (Circuit_String_nesting [.HGate ⟨0⟩] [.XGate ⟨1⟩, Gate.Circuit []] [.ZGate ⟨2⟩]).1
      (List.cons_ne_nil _ _),
    (Circuit_String_nesting [.HGate ⟨0⟩] [.XGate ⟨1⟩, Gate.Circuit []] [.ZGate ⟨2⟩]).2.1
      (List.cons_ne_nil _ _) (List.cons_ne_nil _ _)⟩

/-! ## `Itoa` is injective and writes only digits and a sign -/

theorem digitChar_isDigit (k : Nat) (hk : k < 10) : (Nat.digitChar k).isDigit = true := by
  interval_cases k <;> decide

theorem digitValue_digitChar (k : Nat) (hk : k < 10) : digitValue (Nat.digitChar k) = k := by
  interval_cases k <;> decide

theorem toDigitsCore_isDigit (fuel n : Nat) (ds : List Char)
    (hds : ∀ ch ∈ ds, ch.isDigit = true) :
    ∀ ch ∈ Nat.toDigitsCore 10 fuel n ds, ch.isDigit = true := by
  induction fuel generalizing n ds with
  | zero => simpa [Nat.toDigitsCore] using hds
  | succ fuel ih =>
    have hd : (Nat.digitChar (n % 10)).isDigit = true :=
      digitChar_isDigit _ (Nat.mod_lt _ (by decide))
    have hcons : ∀ ch ∈ Nat.digitChar (n % 10) :: ds, ch.isDigit = true := by
      intro ch hch
      rcases List.mem_cons.1 hch with rfl | h
      · exact hd
      · exact hds ch h
    simp only [Nat.toDigitsCore]
    split_ifs
    · exact hcons
    · exact ih (n / 10) _ hcons

theorem readDigits_toDigitsCore (fuel n : Nat) (ds : List Char) (h : n < fuel) :
    readDigits 0 (Nat.toDigitsCore 10 fuel n ds) = readDigits n ds := by
  induction fuel generalizing n ds with
  | zero => omega
  | succ fuel ih =>
    have hv : digitValue (Nat.digitChar (n % 10)) = n % 10 :=
      digitValue_digitChar _ (Nat.mod_lt _ (by decide))
    simp only [Nat.toDigitsCore]
    split_ifs with h0
    · have e : n % 10 = n := by omega
      show readDigits (0 * 10 + digitValue (Nat.digitChar (n % 10))) ds = readDigits n ds
      rw [hv, Nat.zero_mul, Nat.zero_add, e]
    · rw [ih (n / 10) _ (by omega)]
      have e : n / 10 * 10 + n % 10 = n := by omega
      show readDigits (n / 10 * 10 + digitValue (Nat.digitChar (n % 10))) ds = readDigits n ds
      rw [hv, e]

theorem readDigits_toDigits (n : Nat) : readDigits 0 (Nat.toDigits 10 n) = n := by
  exact readDigits_toDigitsCore (n + 1) n [] (Nat.lt_succ_self n)

theorem toDigits_injective (m n : Nat) (h : Nat.toDigits 10 m = Nat.toDigits 10 n) : m = n := by
  have hm := readDigits_toDigits m
  rw [h, readDigits_toDigits] at hm
  exact hm.symm

theorem toDigits_isDigit (n : Nat) : ∀ ch ∈ Nat.toDigits 10 n, ch.isDigit = true :=
  toDigitsCore_isDigit (n + 1) n [] (by simp)

theorem Itoa_data_ofNat (m : Nat) : (Itoa (Int.ofNat m)).data = Nat.toDigits 10 m := rfl

theorem Itoa_data_negSucc (m : Nat) :
    (Itoa (Int.negSucc m)).data = '-' :: Nat.toDigits 10 (m + 1) := rfl

/-- Every character `Itoa` writes is a decimal digit or the minus sign. -/
theorem Itoa_chars (i : Int) : ∀ ch ∈ (Itoa i).data, ch.isDigit = true ∨ ch = '-' := by
  intro ch hch
  cases i with
  | ofNat m =>
    rw [Itoa_data_ofNat] at hch
    exact Or.inl (toDigits_isDigit m ch hch)
  | negSucc m =>
    rw [Itoa_data_negSucc] at hch
    rcases List.mem_cons.1 hch with rfl | h
    · exact Or.inr rfl
    · exact Or.inl (toDigits_isDigit _ ch h)

theorem Itoa_data_injective (i j : Int) (h : (Itoa i).data = (Itoa j).data) : i = j := by
  cases i with
  | ofNat m =>
    cases j with
    | ofNat n =>
      rw [Itoa_data_ofNat, Itoa_data_ofNat] at h
      rw [toDigits_injective m n h]
    | negSucc n =>
      rw [Itoa_data_ofNat, Itoa_data_negSucc] at h
      have hmem : '-' ∈ Nat.toDigits 10 m := by rw [h]; exact List.mem_cons_self _ _
      exact absurd (toDigits_isDigit m _ hmem) (by decide)
  | negSucc m =>
    cases j with
    | ofNat n =>
      rw [Itoa_data_ofNat, Itoa_data_negSucc] at h
      have hmem : '-' ∈ Nat.toDigits 10 n := by rw [← h]; exact List.mem_cons_self _ _
      exact absurd (toDigits_isDigit n _ hmem) (by decide)
    | negSucc n =>
      rw [Itoa_data_negSucc, Itoa_data_negSucc] at h
      have h2 := toDigits_injective _ _ (List.cons.inj h).2
      have h3 : m = n := by omega
      rw [h3]

theorem Itoa_no_comma (i : Int) : ∀ ch ∈ (Itoa i).data, ch ≠ ',' := by
  intro ch hch hc
  subst hc
  rcases Itoa_chars i _ hch with h | h
  · exact absurd h (by decide)
  · exact absurd h (by decide)

/-- Two lists that agree after a separator absent from both front parts have the same
front parts and the same rests. -/
theorem append_sep_inj {α : Type} (x : α) (a a2 r r2 : List α)
    (ha : ∀ y ∈ a, y ≠ x) (ha2 : ∀ y ∈ a2, y ≠ x) (h : a ++ x :: r = a2 ++ x :: r2) :
    a = a2 ∧ r = r2 := by
  induction a generalizing a2 with
  | nil =>
    cases a2 with
    | nil => simpa using h
    | cons y ys =>
      simp only [List.nil_append, List.cons_append, List.cons.injEq] at h
      exact absurd h.1.symm (ha2 y (List.mem_cons_self _ _))
  | cons z zs ih =>
    cases a2 with
    | nil =>
      simp only [List.nil_append, List.cons_append, List.cons.injEq] at h
      exact absurd h.1 (ha z (List.mem_cons_self _ _))
    | cons y ys =>
      simp only [List.cons_append, List.cons.injEq] at h
      obtain ⟨e1, e2⟩ := ih ys (fun w hw => ha w (List.mem_cons_of_mem _ hw))
        (fun w hw => ha2 w (List.mem_cons_of_mem _ hw)) h.2
      exact ⟨by rw [h.1, e1], e2⟩

theorem HGate_String_data (n : Int) :
    (HGate.String ⟨n⟩).data = 'H' :: '(' :: ((Itoa n).data ++ [')']) := by
  simp [HGate.String, String.data_append]

theorem TGate_String_data_plain (n : Int) :
    (TGate.String ⟨n, false⟩).data = 'T' :: '(' :: ((Itoa n).data ++ [')']) := by
  simp [TGate.String, String.data_append]

theorem TGate_String_data_conj (n : Int) :
    (TGate.String ⟨n, true⟩).data = 'T' :: '*' :: '(' :: ((Itoa n).data ++ [')']) := by
  simp [TGate.String, String.data_append]

theorem XGate_String_data (n : Int) :
    (XGate.String ⟨n⟩).data = 'X' :: '(' :: ((Itoa n).data ++ [')']) := by
  simp [XGate.String, String.data_append]

theorem YGate_String_data (n : Int) :
    (YGate.String ⟨n⟩).data = 'Y' :: '(' :: ((Itoa n).data ++ [')']) := by
  simp [YGate.String, String.data_append]

theorem ZGate_String_data (n : Int) :
    (ZGate.String ⟨n⟩).data = 'Z' :: '(' :: ((Itoa n).data ++ [')']) := by
  simp [ZGate.String, String.data_append]

theorem CNotGate_String_data (c t : Int) :
    (CNotGate.String ⟨c, t⟩).data =
      'C' :: 'N' :: 'o' :: 't' :: '(' :: ((Itoa c).data ++ ',' :: ' ' :: ((Itoa t).data ++ [')'])) := by
  simp [CNotGate.String, String.data_append]

theorem wrap_paren_inj (i j : Int) (h : (Itoa i).data ++ [')'] = (Itoa j).data ++ [')']) :
    i = j :=
  Itoa_data_injective i j (List.append_cancel_right h)

/-- C17: String is injective on the six primitive gate variants: two primitive gates
(HGate, TGate, XGate, YGate, ZGate, CNotGate, with any integer fields, negative ones
included) that render as the same text are the same variant with the same fields. -/
theorem Gate_String_injective_primitive (g1 g2 : Gate) (h1 : g1.isPrimitive = true)
    (h2 : g2.isPrimitive = true) (h : g1.String = g2.String) : g1 = g2 := by
  have hd := congrArg String.data h
  rcases g1 with ⟨⟨n⟩⟩ | ⟨⟨n, cj⟩⟩ | ⟨⟨n⟩⟩ | ⟨⟨n⟩⟩ | ⟨⟨n⟩⟩ | ⟨⟨c, t⟩⟩ | l
  all_goals rcases g2 with ⟨⟨m⟩⟩ | ⟨⟨m, cj2⟩⟩ | ⟨⟨m⟩⟩ | ⟨⟨m⟩⟩ | ⟨⟨m⟩⟩ | ⟨⟨c2, t2⟩⟩ | l2
  all_goals try (cases cj)
  all_goals try (cases cj2)
  all_goals try (simp [Gate.isPrimitive] at h1 h2; done)
  all_goals
    simp only [Gate.String, HGate_String_data, TGate_String_data_plain, TGate_String_data_conj,
      XGate_String_data, YGate_String_data, ZGate_String_data, CNotGate_String_data,
      List.cons.injEq, Char.reduceEq, false_and, true_and, and_false, and_true] at hd
  all_goals try (rw [wrap_paren_inj _ _ hd])
  obtain ⟨e1, e2⟩ := append_sep_inj ',' _ _ _ _ (Itoa_no_comma c) (Itoa_no_comma c2) hd
  have ec := Itoa_data_injective c c2 e1
  have et := wrap_paren_inj t t2 (List.cons.inj e2).2
  rw [ec, et]

/-- Witness for C17: two controlled-NOT gates with a negative control that render alike. -/
theorem Gate_String_injective_primitive_witness :
    (Gate.CNotGate ⟨-3, 4⟩).isPrimitive = true ∧
    (Gate.CNotGate ⟨-3, 4⟩).String = "CNot(-3, 4)" ∧
    (Gate.CNotGate ⟨-3, 4⟩).String = (Gate.CNotGate ⟨-3, 2 + 2⟩).String ∧
    Gate.CNotGate ⟨-3, 4⟩ = Gate.CNotGate ⟨-3, 2 + 2⟩ :=
  ⟨rfl, by decide, by decide,
    Gate_String_injective_primitive (Gate.CNotGate ⟨-3, 4⟩) (Gate.CNotGate ⟨-3, 2 + 2⟩) rfl rfl
      (by decide)⟩
